import Mathlib

/-!
Keyboard matrix scanner of `keyboard/bskbb14/matrix.c`.

A shallow embedding of the matrix acquisition code (GPIO row/column
primitives, the scan pass with its debounce counter, and the read
accessors), followed by theorems about it.

Conventions of the embedding:

* The AVR registers `DDRD`, `PORTD`, `DDRB`, `PORTB` and the `uint8_t`
  counter `debouncing` are natural numbers; every store of a value that
  may not fit eight bits is reduced modulo 256 explicitly.
* `PINB` is read-only input.  One scan pass reads it once per row, so a
  pass takes a function from the row index to the sampled `PINB` value.
* `DEBOUNCE` is a preprocessor constant (`config.h` sets it to 1,
  `matrix.c` defaults it to 10): it is a parameter of the functions that
  use it.
* `matrix` and `matrix_debouncing` are arrays of `MATRIX_ROWS` rows and
  are indexed by `Fin MATRIX_ROWS`.
* `_delay_us`, `_delay_ms` and the `debug` printing have no effect on the
  state modelled here.
* `matrix_is_on` shifts an `int` by its `uint8_t` argument.  C defines
  `1 << col` only while the result fits the `int`; beyond that the value is
  whatever the platform yields, which the embedding takes as a parameter
  (`IntShift`).
-/

namespace Bskbb14

/-! ## Constants of `config.h` and `matrix.c` -/

/-- Number of rows, `#define MATRIX_ROWS 6`. -/
abbrev MATRIX_ROWS : Nat := 6

/-- Number of columns, `#define MATRIX_COLS 6`. -/
abbrev MATRIX_COLS : Nat := 6

/-- Row pins PD0-1, PD4-7: `#define ROW_MASK 0b11110011`. -/
abbrev ROW_MASK : Nat := 0b11110011

/-- Column pins PB0-5: `#define COL_MASK 0b00111111`. -/
abbrev COL_MASK : Nat := 0b00111111

/-- The table `unsigned char row_bitmask[]`. -/
def row_bitmask : List Nat :=
  [0b00000001, 0b00000010, 0b00010000, 0b00100000, 0b01000000, 0b10000000]

/-! ## State -/

/-- The registers and static variables that `matrix.c` reads and writes. -/
@[ext]
structure State where
  /-- Direction register of port D (`ROW_DDR`). -/
  DDRD : Nat
  /-- Data register of port D (`ROW_PORT`). -/
  PORTD : Nat
  /-- Direction register of port B (`COL_DDR`). -/
  DDRB : Nat
  /-- Data register of port B (`COL_PORT`). -/
  PORTB : Nat
  /-- The counter `static uint8_t debouncing`. -/
  debouncing : Nat
  /-- The stable matrix `static matrix_row_t matrix[MATRIX_ROWS]`. -/
  matrix : Fin MATRIX_ROWS → Nat
  /-- The pending matrix `static matrix_row_t matrix_debouncing[MATRIX_ROWS]`. -/
  matrix_debouncing : Fin MATRIX_ROWS → Nat

/-! ## Register macros -/

/-- The macro `set_val(sfr, val)`: `sfr |= val`. -/
def set_val (sfr val : Nat) : Nat := sfr ||| val

/-- The macro `clear_val(sfr, val)`: `sfr &= ~val`.  The register is eight bits
wide, so of the complement only its low eight bits take part. -/
def clear_val (sfr val : Nat) : Nat := sfr &&& (0xFF ^^^ val)

/-! ## GPIO driver -/

/-- The function `read_cols`: `(~COL_PIN) & COL_MASK`, given the sampled `PINB`. -/
def read_cols (pinb : Nat) : Nat := (0xFF ^^^ pinb) &&& COL_MASK

/-- The function `init_cols`: columns to input with pull-up. -/
def init_cols (s : State) : State :=
  let s1 := { s with DDRB := set_val s.DDRB COL_MASK }
  let s2 := { s1 with PORTB := set_val s1.PORTB COL_MASK }
  { s2 with DDRB := clear_val s2.DDRB COL_MASK }

/-- The function `unselect_rows`: all row pins to Hi-Z. -/
def unselect_rows (s : State) : State :=
  let s1 := { s with DDRD := set_val s.DDRD ROW_MASK }
  let s2 := { s1 with PORTD := clear_val s1.PORTD ROW_MASK }
  { s2 with DDRD := clear_val s2.DDRD ROW_MASK }

/-- The function `select_row`: output low on the pin of `row`, guarded by
`row >= 0 && row < 6`. -/
def select_row (row : Nat) (s : State) : State :=
  if 0 ≤ row ∧ row < 6 then
    let s1 := { s with DDRD := set_val s.DDRD (row_bitmask.getD row 0) }
    { s1 with PORTD := clear_val s1.PORTD (row_bitmask.getD row 0) }
  else s

/-! ## Matrix scanner -/

/-- The loop of `matrix_init` over the rows listed in `rows`: both matrices get 0
in each row. -/
def clear_rows (rows : List (Fin MATRIX_ROWS)) (s : State) : State :=
  rows.foldl
    (fun t i =>
      let t1 := { t with matrix := Function.update t.matrix i 0 }
      { t1 with matrix_debouncing := Function.update t1.matrix_debouncing i 0 })
    s

/-- The function `matrix_init`: unselect the rows, initialise the columns, clear
both matrices.  The counter `debouncing` is not written. -/
def matrix_init (s : State) : State :=
  let s1 := unselect_rows s
  let s2 := init_cols s1
  clear_rows (List.finRange MATRIX_ROWS) s2

/-- Body of the row loop of `matrix_scan` for row `i`: select the row, read the
columns, record a changed reading and restart the counter, unselect. -/
def scan_row (DEBOUNCE : Nat) (pinb : Fin MATRIX_ROWS → Nat) (s : State)
    (i : Fin MATRIX_ROWS) : State :=
  let s1 := select_row i.val s
  let cols := read_cols (pinb i)
  let s2 :=
    if s1.matrix_debouncing i ≠ cols then
      { s1 with
        matrix_debouncing := Function.update s1.matrix_debouncing i cols
        debouncing := DEBOUNCE % 256 }
    else s1
  unselect_rows s2

/-- The row loop of `matrix_scan`, over the rows listed in `rows`. -/
def scan_rows (DEBOUNCE : Nat) (pinb : Fin MATRIX_ROWS → Nat)
    (rows : List (Fin MATRIX_ROWS)) (s : State) : State :=
  rows.foldl (scan_row DEBOUNCE pinb) s

/-- The copy loop of `matrix_scan` over the rows listed in `rows`:
`matrix[i] = matrix_debouncing[i]`. -/
def promote_rows (rows : List (Fin MATRIX_ROWS)) (s : State) : State :=
  rows.foldl
    (fun t i => { t with matrix := Function.update t.matrix i (t.matrix_debouncing i) })
    s

/-- The tail of `matrix_scan`: count down, and on reaching zero copy the pending
matrix into the stable one. -/
def debounce_step (s : State) : State :=
  if s.debouncing ≠ 0 then
    let s1 := { s with debouncing := (s.debouncing + 255) % 256 }
    if s1.debouncing ≠ 0 then s1
    else promote_rows (List.finRange MATRIX_ROWS) s1
  else s

/-- The function `matrix_scan`: one pass over all rows, then the debounce step.
Gives the return value and the state after the pass. -/
def matrix_scan (DEBOUNCE : Nat) (pinb : Fin MATRIX_ROWS → Nat) (s : State) :
    Nat × State :=
  (1, debounce_step (scan_rows DEBOUNCE pinb (List.finRange MATRIX_ROWS) s))

/-- The function `matrix_is_modified`. -/
def matrix_is_modified (s : State) : Bool :=
  if s.debouncing ≠ 0 then false else true

/-- The `int` of the platform as far as `1 << col` is concerned: its width in
bits (C guarantees at least 16; avr-gcc has 16) and, for a shift count at which C
leaves `1 << col` undefined, the bit pattern that the platform yields. -/
structure IntShift where
  /-- Width of `int` in bits. -/
  bits : Nat
  /-- An `int` has at least 16 bits. -/
  bits_ge : 16 ≤ bits
  /-- Result of `1 << col` where C does not define it. -/
  wide : Nat → Nat

/-- The expression `(matrix_row_t)1 << col`: the operand is promoted to `int`, and
the result is `2 ^ col` when that is representable in `int`, that is for
`col < bits - 1`; for a larger count the behaviour is undefined and the value is
the platform's. -/
def shl_one (p : IntShift) (col : Nat) : Nat :=
  if col < p.bits - 1 then 1 <<< col else p.wide col

/-- The function `matrix_is_on`: `matrix[row] & ((matrix_row_t)1 << col)`, converted
to `bool`. -/
def matrix_is_on (p : IntShift) (s : State) (row : Fin MATRIX_ROWS) (col : Nat) : Bool :=
  (s.matrix row &&& shl_one p col) != 0

/-- The function `matrix_get_row`. -/
def matrix_get_row (s : State) (row : Fin MATRIX_ROWS) : Nat :=
  s.matrix row

/-- Whether some row listed in `rows` reads differently from its pending entry. -/
def rowsChanged (pinb : Fin MATRIX_ROWS → Nat) (rows : List (Fin MATRIX_ROWS))
    (s : State) : Prop :=
  ∃ r ∈ rows, s.matrix_debouncing r ≠ read_cols (pinb r)

instance (pinb : Fin MATRIX_ROWS → Nat) (rows : List (Fin MATRIX_ROWS)) (s : State) :
    Decidable (rowsChanged pinb rows s) := by
  unfold rowsChanged
  infer_instance

/-- Value of the counter when the row loop of a pass has ended: `DEBOUNCE` (as
stored in eight bits) if some row read differently, the old value otherwise. -/
def counterAfterRows (DEBOUNCE : Nat) (pinb : Fin MATRIX_ROWS → Nat) (s : State) : Nat :=
  if rowsChanged pinb (List.finRange MATRIX_ROWS) s then DEBOUNCE % 256 else s.debouncing

/-- The counter has not passed `DEBOUNCE` (as stored in eight bits), and a
state whose counter is 0 has its stable matrix equal to the pending one. -/
def SettledInSync (DEBOUNCE : Nat) (s : State) : Prop :=
  s.debouncing ≤ DEBOUNCE % 256
    ∧ (s.debouncing = 0 → ∀ r, s.matrix r = s.matrix_debouncing r)

/-! ## Pin states

The table in the header comment of `matrix.c`: a pin with `DDxn = 0` and
`PORTxn = 0` is a high-impedance input, a pin with `DDxn = 1` and
`PORTxn = 0` is an output driven low. -/

/-- Every port D pin of `mask` is high-impedance: `DDR` bit 0, `PORT` bit 0. -/
def pinHiZ (s : State) (mask : Nat) : Prop :=
  s.DDRD &&& mask = 0 ∧ s.PORTD &&& mask = 0

/-- Every port D pin of `mask` is an output driven low: `DDR` bit 1, `PORT` bit 0. -/
def pinOutputLow (s : State) (mask : Nat) : Prop :=
  s.DDRD &&& mask = mask ∧ s.PORTD &&& mask = 0

instance (s : State) (mask : Nat) : Decidable (pinHiZ s mask) := by
  unfold pinHiZ
  infer_instance

instance (s : State) (mask : Nat) : Decidable (pinOutputLow s mask) := by
  unfold pinOutputLow
  infer_instance

/-! ## Runs of the program -/

/-- State at program start: static arrays are zero, `debouncing = DEBOUNCE`; the
registers hold whatever they hold. -/
def IsInitial (DEBOUNCE : Nat) (s : State) : Prop :=
  s.debouncing = DEBOUNCE % 256 ∧ ∀ r, s.matrix r = 0 ∧ s.matrix_debouncing r = 0

/-- The start state with all four registers cleared (their value after reset). -/
def initState (DEBOUNCE : Nat) : State :=
  { DDRD := 0, PORTD := 0, DDRB := 0, PORTB := 0
    debouncing := DEBOUNCE % 256
    matrix := fun _ => 0
    matrix_debouncing := fun _ => 0 }

/-- States reachable from a start state by `matrix_init` and `matrix_scan`. -/
inductive Reachable (DEBOUNCE : Nat) : State → Prop
  | start (s : State) (h : IsInitial DEBOUNCE s) : Reachable DEBOUNCE s
  | init (s : State) (h : Reachable DEBOUNCE s) : Reachable DEBOUNCE (matrix_init s)
  | scan (s : State) (pinb : Fin MATRIX_ROWS → Nat) (h : Reachable DEBOUNCE s) :
      Reachable DEBOUNCE (matrix_scan DEBOUNCE pinb s).2

/-- Consecutive `matrix_scan` passes, one per entry of `inputs`. -/
def run_scans (DEBOUNCE : Nat) (inputs : List (Fin MATRIX_ROWS → Nat)) (s : State) :
    State :=
  inputs.foldl (fun t pinb => (matrix_scan DEBOUNCE pinb t).2) s

/-- The `PINB` samples of a pass in which row 0 reads column 0 closed and every
other row reads nothing. -/
def pinbRow0Col0 : Fin MATRIX_ROWS → Nat :=
  fun r => if r = 0 then 0xFE else 0xFF

/-- The `PINB` samples of a pass in which no row reads a closure. -/
def pinbIdle : Fin MATRIX_ROWS → Nat :=
  fun _ => 0xFF

/-! ## Ghost detection, the state at a column read, pins outside the matrix -/

/-- The function `matrix_has_ghost_in_row` (compiled under `MATRIX_HAS_GHOST`).
The C code computes `matrix[row] - 1` in `int`: for a row of 0 that is -1, whose
AND with the row is 0, which is also what the truncated subtraction gives here.
The loop returns true at the first other row that shares a bit. -/
def matrix_has_ghost_in_row (s : State) (row : Fin MATRIX_ROWS) : Bool :=
  if ((s.matrix row - 1) &&& s.matrix row) = 0 then false
  else
    (List.finRange MATRIX_ROWS).any
      (fun i => decide (i ≠ row) && ((s.matrix i &&& s.matrix row) != 0))

/-- The word `x` has at least two bits set. -/
def hasTwoBits (x : Nat) : Prop :=
  ∃ a b, a ≠ b ∧ x.testBit a = true ∧ x.testBit b = true

/-- State in which `read_cols` runs for row `i` during a pass of `matrix_scan`:
the rows before `i` have gone through the loop body and row `i` has just been
selected. -/
def state_at_read (DEBOUNCE : Nat) (pinb : Fin MATRIX_ROWS → Nat) (s : State)
    (i : Fin MATRIX_ROWS) : State :=
  select_row i.val (scan_rows DEBOUNCE pinb ((List.finRange MATRIX_ROWS).take i.val) s)

/-- The pins outside the matrix are the same in `t` as in `s`: bits 2 and 3 of
`DDRD` and `PORTD` (RXD, TXD) and bits 6 and 7 of `DDRB` and `PORTB`. -/
def outsidePinsEq (s t : State) : Prop :=
  (t.DDRD.testBit 2 = s.DDRD.testBit 2 ∧ t.DDRD.testBit 3 = s.DDRD.testBit 3)
    ∧ (t.PORTD.testBit 2 = s.PORTD.testBit 2 ∧ t.PORTD.testBit 3 = s.PORTD.testBit 3)
    ∧ (t.DDRB.testBit 6 = s.DDRB.testBit 6 ∧ t.DDRB.testBit 7 = s.DDRB.testBit 7)
    ∧ (t.PORTB.testBit 6 = s.PORTB.testBit 6 ∧ t.PORTB.testBit 7 = s.PORTB.testBit 7)

/-- The `PINB` samples of a pass in which every pin of port B reads low, the two
pins outside the matrix included. -/
def pinbAllLow : Fin MATRIX_ROWS → Nat :=
  fun _ => 0x00

/-- An `int` of 16 bits on a platform where an over-wide `1 << col` yields 0, as a
shift done one bit at a time does. -/
def int16ZeroShift : IntShift :=
  { bits := 16, bits_ge := Nat.le_refl 16, wide := fun _ => 0 }

/-- An `int` of 32 bits on a platform whose shift instruction takes the count
modulo 32, so that `1 << 32` yields 1. -/
def int32WrapShift : IntShift :=
  { bits := 32, bits_ge := by decide, wide := fun col => 1 <<< (col % 32) }

/-! ## Bit-level facts about the register macros -/

theorem testBit_ge_eight (m i : Nat) (hm : m < 256) (hi : 8 ≤ i) : m.testBit i = false := by
  apply Nat.testBit_lt_two_pow
  calc m < 2 ^ 8 := hm
    _ ≤ 2 ^ i := Nat.pow_le_pow_right (by decide) hi

theorem clear_set_clear_set (x m : Nat) :
    clear_val (set_val (clear_val (set_val x m) m) m) m = clear_val (set_val x m) m := by
  apply Nat.eq_of_testBit_eq
  intro i
  simp only [clear_val, set_val, Nat.testBit_and, Nat.testBit_or]
  cases x.testBit i <;> cases m.testBit i <;> cases (0xFF ^^^ m).testBit i <;> rfl

theorem clear_clear (x m : Nat) : clear_val (clear_val x m) m = clear_val x m := by
  apply Nat.eq_of_testBit_eq
  intro i
  simp only [clear_val, Nat.testBit_and]
  cases x.testBit i <;> cases (0xFF ^^^ m).testBit i <;> rfl

theorem set_set (x m : Nat) : set_val (set_val x m) m = set_val x m := by
  apply Nat.eq_of_testBit_eq
  intro i
  simp only [set_val, Nat.testBit_or]
  cases x.testBit i <;> cases m.testBit i <;> rfl

theorem clear_val_and_mask (x m : Nat) (hm : m < 256) : clear_val x m &&& m = 0 := by
  apply Nat.eq_of_testBit_eq
  intro i
  simp only [clear_val, Nat.testBit_and, Nat.testBit_xor, Nat.zero_testBit]
  by_cases hi : 8 ≤ i
  · rw [testBit_ge_eight m i hm hi]
    simp
  · have h255 : (0xFF : Nat).testBit i = true := by
      have : i < 8 := by omega
      interval_cases i <;> decide
    rw [h255]
    cases x.testBit i <;> cases m.testBit i <;> rfl

theorem clear_val_and_of_zero (x m k : Nat) (h : x &&& k = 0) : clear_val x m &&& k = 0 := by
  unfold clear_val
  rw [Nat.and_assoc, Nat.and_comm (0xFF ^^^ m) k, ← Nat.and_assoc, h, Nat.zero_and]

theorem set_val_and_of_disjoint (x m k : Nat) (h : m &&& k = 0) :
    set_val x m &&& k = x &&& k := by
  have hb : ∀ i, (m.testBit i && k.testBit i) = false := by
    intro i
    rw [← Nat.testBit_and, h, Nat.zero_testBit]
  apply Nat.eq_of_testBit_eq
  intro i
  have := hb i
  simp only [set_val, Nat.testBit_and, Nat.testBit_or]
  revert this
  cases x.testBit i <;> cases m.testBit i <;> cases k.testBit i <;> simp

theorem set_val_and_self (x m : Nat) : set_val x m &&& m = m := by
  apply Nat.eq_of_testBit_eq
  intro i
  simp only [set_val, Nat.testBit_and, Nat.testBit_or]
  cases x.testBit i <;> cases m.testBit i <;> rfl

theorem and_eq_zero_of_sub (x k m : Nat) (hk : x &&& k = 0) (hm : m &&& k = m) :
    x &&& m = 0 := by
  rw [← hm, Nat.and_comm m k, ← Nat.and_assoc, hk, Nat.zero_and]

/-! ## Frame facts of the GPIO primitives -/

@[simp] theorem unselect_rows_matrix (s : State) : (unselect_rows s).matrix = s.matrix := rfl

@[simp] theorem unselect_rows_matrix_debouncing (s : State) :
    (unselect_rows s).matrix_debouncing = s.matrix_debouncing := rfl

@[simp] theorem unselect_rows_debouncing (s : State) :
    (unselect_rows s).debouncing = s.debouncing := rfl

@[simp] theorem select_row_matrix (row : Nat) (s : State) :
    (select_row row s).matrix = s.matrix := by
  unfold select_row
  split <;> rfl

@[simp] theorem select_row_matrix_debouncing (row : Nat) (s : State) :
    (select_row row s).matrix_debouncing = s.matrix_debouncing := by
  unfold select_row
  split <;> rfl

@[simp] theorem select_row_debouncing (row : Nat) (s : State) :
    (select_row row s).debouncing = s.debouncing := by
  unfold select_row
  split <;> rfl

/-! ## The row loop -/

theorem scan_row_matrix (D : Nat) (pinb : Fin MATRIX_ROWS → Nat) (s : State)
    (i : Fin MATRIX_ROWS) : (scan_row D pinb s i).matrix = s.matrix := by
  unfold scan_row
  by_cases h : s.matrix_debouncing i = read_cols (pinb i) <;> simp [h]

theorem scan_row_matrix_debouncing (D : Nat) (pinb : Fin MATRIX_ROWS → Nat) (s : State)
    (i : Fin MATRIX_ROWS) :
    (scan_row D pinb s i).matrix_debouncing
      = Function.update s.matrix_debouncing i (read_cols (pinb i)) := by
  unfold scan_row
  by_cases h : s.matrix_debouncing i = read_cols (pinb i)
  · simp [h]
  · simp [h]

theorem scan_row_debouncing (D : Nat) (pinb : Fin MATRIX_ROWS → Nat) (s : State)
    (i : Fin MATRIX_ROWS) :
    (scan_row D pinb s i).debouncing
      = if s.matrix_debouncing i ≠ read_cols (pinb i) then D % 256 else s.debouncing := by
  unfold scan_row
  by_cases h : s.matrix_debouncing i = read_cols (pinb i) <;> simp [h]

theorem scan_rows_matrix (D : Nat) (pinb : Fin MATRIX_ROWS → Nat)
    (rows : List (Fin MATRIX_ROWS)) (s : State) :
    (scan_rows D pinb rows s).matrix = s.matrix := by
  induction rows generalizing s with
  | nil => rfl
  | cons i rest ih =>
    show (scan_rows D pinb rest (scan_row D pinb s i)).matrix = s.matrix
    rw [ih, scan_row_matrix]

theorem scan_rows_matrix_debouncing (D : Nat) (pinb : Fin MATRIX_ROWS → Nat)
    (rows : List (Fin MATRIX_ROWS)) (s : State) (r : Fin MATRIX_ROWS) :
    (scan_rows D pinb rows s).matrix_debouncing r
      = if r ∈ rows then read_cols (pinb r) else s.matrix_debouncing r := by
  induction rows generalizing s with
  | nil => simp [scan_rows]
  | cons i rest ih =>
    show (scan_rows D pinb rest (scan_row D pinb s i)).matrix_debouncing r = _
    rw [ih, scan_row_matrix_debouncing]
    by_cases hr : r ∈ rest
    · simp [hr]
    · by_cases hri : r = i
      · subst hri
        simp [hr]
      · simp [hr, hri, Function.update_noteq hri]

theorem scan_rows_debouncing (D : Nat) (pinb : Fin MATRIX_ROWS → Nat)
    (rows : List (Fin MATRIX_ROWS)) (s : State) :
    (scan_rows D pinb rows s).debouncing
      = if rowsChanged pinb rows s then D % 256 else s.debouncing := by
  induction rows generalizing s with
  | nil => simp [scan_rows, rowsChanged]
  | cons i rest ih =>
    show (scan_rows D pinb rest (scan_row D pinb s i)).debouncing = _
    rw [ih, scan_row_debouncing]
    by_cases hrest : rowsChanged pinb rest (scan_row D pinb s i)
    · have hall : rowsChanged pinb (i :: rest) s := by
        obtain ⟨r, hr, hne⟩ := hrest
        rw [scan_row_matrix_debouncing] at hne
        by_cases hri : r = i
        · subst hri
          simp at hne
        · rw [Function.update_noteq hri] at hne
          exact ⟨r, List.mem_cons_of_mem _ hr, hne⟩
      simp [hrest, hall]
    · by_cases hi : s.matrix_debouncing i = read_cols (pinb i)
      · have hall : ¬ rowsChanged pinb (i :: rest) s := by
          rintro ⟨r, hr, hne⟩
          apply hrest
          rcases List.mem_cons.mp hr with h | h
          · subst h
            exact absurd hi hne
          · refine ⟨r, h, ?_⟩
            rw [scan_row_matrix_debouncing]
            by_cases hri : r = i
            · subst hri
              exact absurd hi hne
            · rwa [Function.update_noteq hri]
        simp [hrest, hall, hi]
      · have hall : rowsChanged pinb (i :: rest) s :=
          ⟨i, List.mem_cons_self _ _, hi⟩
        simp [hrest, hall, hi]

/-! ## The copy loop and the debounce step -/

theorem promote_rows_frame (rows : List (Fin MATRIX_ROWS)) (s : State) :
    (promote_rows rows s).matrix_debouncing = s.matrix_debouncing
      ∧ (promote_rows rows s).debouncing = s.debouncing
      ∧ (promote_rows rows s).DDRD = s.DDRD ∧ (promote_rows rows s).PORTD = s.PORTD
      ∧ (promote_rows rows s).DDRB = s.DDRB ∧ (promote_rows rows s).PORTB = s.PORTB := by
  induction rows generalizing s with
  | nil => simp [promote_rows]
  | cons i rest ih =>
    have h := ih { s with matrix := Function.update s.matrix i (s.matrix_debouncing i) }
    simpa [promote_rows] using h

theorem promote_rows_matrix (rows : List (Fin MATRIX_ROWS)) (s : State)
    (r : Fin MATRIX_ROWS) :
    (promote_rows rows s).matrix r
      = if r ∈ rows then s.matrix_debouncing r else s.matrix r := by
  induction rows generalizing s with
  | nil => simp [promote_rows]
  | cons i rest ih =>
    have h := ih { s with matrix := Function.update s.matrix i (s.matrix_debouncing i) }
    show (promote_rows rest _).matrix r = _
    rw [h]
    by_cases hr : r ∈ rest
    · simp [hr]
    · by_cases hri : r = i
      · subst hri
        simp [hr]
      · simp [hr, hri, Function.update_noteq hri]

theorem debounce_step_matrix_debouncing (s : State) :
    (debounce_step s).matrix_debouncing = s.matrix_debouncing := by
  unfold debounce_step
  by_cases h0 : s.debouncing = 0
  · simp [h0]
  · by_cases h1 : (s.debouncing + 255) % 256 = 0
    · simp [h0, h1, (promote_rows_frame _ _).1]
    · simp [h0, h1]

theorem debounce_step_debouncing (s : State) :
    (debounce_step s).debouncing
      = if s.debouncing ≠ 0 then (s.debouncing + 255) % 256 else 0 := by
  unfold debounce_step
  by_cases h0 : s.debouncing = 0
  · simp [h0]
  · by_cases h1 : (s.debouncing + 255) % 256 = 0
    · simp [h0, h1, (promote_rows_frame _ _).2.1]
    · simp [h0, h1]

theorem debounce_step_matrix (s : State) (r : Fin MATRIX_ROWS) :
    (debounce_step s).matrix r
      = if s.debouncing ≠ 0 ∧ (s.debouncing + 255) % 256 = 0 then s.matrix_debouncing r
        else s.matrix r := by
  unfold debounce_step
  by_cases h0 : s.debouncing = 0
  · simp [h0]
  · by_cases h1 : (s.debouncing + 255) % 256 = 0
    · simp [h0, h1, promote_rows_matrix, List.mem_finRange]
    · simp [h0, h1]

/-! ## One pass of `matrix_scan`, field by field -/

theorem matrix_scan_matrix_debouncing (D : Nat) (pinb : Fin MATRIX_ROWS → Nat)
    (s : State) (r : Fin MATRIX_ROWS) :
    (matrix_scan D pinb s).2.matrix_debouncing r = read_cols (pinb r) := by
  show (debounce_step _).matrix_debouncing r = _
  rw [debounce_step_matrix_debouncing, scan_rows_matrix_debouncing]
  simp [List.mem_finRange]

theorem matrix_scan_debouncing (D : Nat) (pinb : Fin MATRIX_ROWS → Nat) (s : State) :
    (matrix_scan D pinb s).2.debouncing
      = if counterAfterRows D pinb s ≠ 0 then (counterAfterRows D pinb s + 255) % 256
        else 0 := by
  show (debounce_step _).debouncing = _
  rw [debounce_step_debouncing, scan_rows_debouncing]
  rfl

theorem matrix_scan_matrix (D : Nat) (pinb : Fin MATRIX_ROWS → Nat) (s : State)
    (r : Fin MATRIX_ROWS) :
    (matrix_scan D pinb s).2.matrix r
      = if counterAfterRows D pinb s ≠ 0 ∧ (counterAfterRows D pinb s + 255) % 256 = 0
        then read_cols (pinb r) else s.matrix r := by
  show (debounce_step _).matrix r = _
  rw [debounce_step_matrix, scan_rows_debouncing, scan_rows_matrix,
    scan_rows_matrix_debouncing]
  simp only [List.mem_finRange, if_true]
  rfl

/-! ## `matrix_init`, field by field -/

theorem clear_rows_frame (rows : List (Fin MATRIX_ROWS)) (s : State) :
    (clear_rows rows s).debouncing = s.debouncing
      ∧ (clear_rows rows s).DDRD = s.DDRD ∧ (clear_rows rows s).PORTD = s.PORTD
      ∧ (clear_rows rows s).DDRB = s.DDRB ∧ (clear_rows rows s).PORTB = s.PORTB := by
  induction rows generalizing s with
  | nil => simp [clear_rows]
  | cons i rest ih =>
    have h := ih { s with matrix := Function.update s.matrix i 0
                          matrix_debouncing := Function.update s.matrix_debouncing i 0 }
    simpa [clear_rows] using h

theorem clear_rows_matrix (rows : List (Fin MATRIX_ROWS)) (s : State)
    (r : Fin MATRIX_ROWS) :
    (clear_rows rows s).matrix r = if r ∈ rows then 0 else s.matrix r := by
  induction rows generalizing s with
  | nil => simp [clear_rows]
  | cons i rest ih =>
    have h := ih { s with matrix := Function.update s.matrix i 0
                          matrix_debouncing := Function.update s.matrix_debouncing i 0 }
    show (clear_rows rest _).matrix r = _
    rw [h]
    by_cases hr : r ∈ rest
    · simp [hr]
    · by_cases hri : r = i
      · subst hri
        simp [hr]
      · simp [hr, hri, Function.update_noteq hri]

theorem clear_rows_matrix_debouncing (rows : List (Fin MATRIX_ROWS)) (s : State)
    (r : Fin MATRIX_ROWS) :
    (clear_rows rows s).matrix_debouncing r
      = if r ∈ rows then 0 else s.matrix_debouncing r := by
  induction rows generalizing s with
  | nil => simp [clear_rows]
  | cons i rest ih =>
    have h := ih { s with matrix := Function.update s.matrix i 0
                          matrix_debouncing := Function.update s.matrix_debouncing i 0 }
    show (clear_rows rest _).matrix_debouncing r = _
    rw [h]
    by_cases hr : r ∈ rest
    · simp [hr]
    · by_cases hri : r = i
      · subst hri
        simp [hr]
      · simp [hr, hri, Function.update_noteq hri]

theorem matrix_init_matrix (s : State) (r : Fin MATRIX_ROWS) :
    (matrix_init s).matrix r = 0 := by
  show (clear_rows _ _).matrix r = 0
  rw [clear_rows_matrix]
  simp [List.mem_finRange]

theorem matrix_init_matrix_debouncing (s : State) (r : Fin MATRIX_ROWS) :
    (matrix_init s).matrix_debouncing r = 0 := by
  show (clear_rows _ _).matrix_debouncing r = 0
  rw [clear_rows_matrix_debouncing]
  simp [List.mem_finRange]

theorem matrix_init_debouncing (s : State) :
    (matrix_init s).debouncing = s.debouncing := by
  show (clear_rows _ _).debouncing = _
  rw [(clear_rows_frame _ _).1]
  rfl

theorem matrix_init_registers (s : State) :
    (matrix_init s).DDRD = clear_val (set_val s.DDRD ROW_MASK) ROW_MASK
      ∧ (matrix_init s).PORTD = clear_val s.PORTD ROW_MASK
      ∧ (matrix_init s).DDRB = clear_val (set_val s.DDRB COL_MASK) COL_MASK
      ∧ (matrix_init s).PORTB = set_val s.PORTB COL_MASK := by
  obtain ⟨-, h1, h2, h3, h4⟩ := clear_rows_frame (List.finRange MATRIX_ROWS)
    (init_cols (unselect_rows s))
  exact ⟨h1, h2, h3, h4⟩

/-! ## The invariant of reachable states -/

theorem not_rowsChanged_iff (pinb : Fin MATRIX_ROWS → Nat) (s : State) :
    ¬ rowsChanged pinb (List.finRange MATRIX_ROWS) s
      ↔ ∀ r, s.matrix_debouncing r = read_cols (pinb r) := by
  unfold rowsChanged
  constructor
  · intro h r
    by_contra hne
    exact h ⟨r, List.mem_finRange r, hne⟩
  · rintro h ⟨r, -, hne⟩
    exact hne (h r)

theorem counterAfterRows_le (D : Nat) (pinb : Fin MATRIX_ROWS → Nat) (s : State)
    (h : s.debouncing ≤ D % 256) : counterAfterRows D pinb s ≤ D % 256 := by
  unfold counterAfterRows
  split
  · exact le_refl _
  · exact h

theorem counterAfterRows_steady (D : Nat) (pinb : Fin MATRIX_ROWS → Nat) (s : State)
    (h : ∀ r, s.matrix_debouncing r = read_cols (pinb r)) :
    counterAfterRows D pinb s = s.debouncing := by
  unfold counterAfterRows
  rw [if_neg ((not_rowsChanged_iff pinb s).mpr h)]

theorem settledInSync_initial (D : Nat) (s : State) (h : IsInitial D s) :
    SettledInSync D s := by
  refine ⟨le_of_eq h.1, fun _ r => ?_⟩
  rw [(h.2 r).1, (h.2 r).2]

theorem settledInSync_matrix_init (D : Nat) (s : State) (h : SettledInSync D s) :
    SettledInSync D (matrix_init s) := by
  refine ⟨?_, fun _ r => ?_⟩
  · rw [matrix_init_debouncing]
    exact h.1
  · rw [matrix_init_matrix, matrix_init_matrix_debouncing]

theorem settledInSync_matrix_scan (D : Nat) (hD : D % 256 ≠ 0)
    (pinb : Fin MATRIX_ROWS → Nat) (s : State) (h : SettledInSync D s) :
    SettledInSync D (matrix_scan D pinb s).2 := by
  have hc := counterAfterRows_le D pinb s h.1
  have hlt : D % 256 < 256 := Nat.mod_lt _ (by decide)
  refine ⟨?_, fun h0 r => ?_⟩
  · rw [matrix_scan_debouncing]
    split <;> omega
  · rw [matrix_scan_debouncing] at h0
    rw [matrix_scan_matrix, matrix_scan_matrix_debouncing]
    by_cases hz : counterAfterRows D pinb s = 0
    · have hnc : ¬ rowsChanged pinb (List.finRange MATRIX_ROWS) s := by
        intro hch
        unfold counterAfterRows at hz
        rw [if_pos hch] at hz
        exact hD hz
      have hs : s.debouncing = 0 := by
        unfold counterAfterRows at hz
        rw [if_neg hnc] at hz
        exact hz
      simp only [hz, ne_eq, not_true_eq_false, false_and, if_false]
      rw [h.2 hs r]
      exact (not_rowsChanged_iff pinb s).mp hnc r
    · rw [if_pos hz] at h0
      rw [if_pos ⟨hz, h0⟩]

theorem settledInSync_of_reachable (D : Nat) (hD : D % 256 ≠ 0) (s : State)
    (h : Reachable D s) : SettledInSync D s := by
  induction h with
  | start s h => exact settledInSync_initial D s h
  | init s _ ih => exact settledInSync_matrix_init D s ih
  | scan s pinb _ ih => exact settledInSync_matrix_scan D hD pinb s ih

theorem reachable_run_scans (D : Nat) (inputs : List (Fin MATRIX_ROWS → Nat)) (s : State)
    (h : Reachable D s) : Reachable D (run_scans D inputs s) := by
  induction inputs generalizing s with
  | nil => exact h
  | cons p rest ih => exact ih _ (Reachable.scan s p h)

theorem run_scans_nil (D : Nat) (s : State) : run_scans D [] s = s := rfl

theorem run_scans_cons (D : Nat) (p : Fin MATRIX_ROWS → Nat)
    (rest : List (Fin MATRIX_ROWS → Nat)) (s : State) :
    run_scans D (p :: rest) s = run_scans D rest (matrix_scan D p s).2 := rfl

theorem run_scans_append_single (D : Nat) (pre : List (Fin MATRIX_ROWS → Nat))
    (p : Fin MATRIX_ROWS → Nat) (s : State) :
    run_scans D (pre ++ [p]) s = (matrix_scan D p (run_scans D pre s)).2 := by
  simp [run_scans, List.foldl_append]

/-! ## Passes at particular thresholds -/

/-- With `DEBOUNCE = 1` a pass from a state that satisfies the invariant ends
settled, with the readings of that pass in the stable matrix. -/
theorem scan_publishes_at_one (pinb : Fin MATRIX_ROWS → Nat) (s : State)
    (h : SettledInSync 1 s) :
    (matrix_scan 1 pinb s).2.debouncing = 0
      ∧ ∀ r, (matrix_scan 1 pinb s).2.matrix r = read_cols (pinb r) := by
  have hle : s.debouncing ≤ 1 := h.1
  by_cases hch : rowsChanged pinb (List.finRange MATRIX_ROWS) s
  · have hc : counterAfterRows 1 pinb s = 1 := by
      unfold counterAfterRows
      rw [if_pos hch]
    refine ⟨?_, fun r => ?_⟩
    · rw [matrix_scan_debouncing, hc]
      rfl
    · rw [matrix_scan_matrix, hc]
      rfl
  · have hc : counterAfterRows 1 pinb s = s.debouncing := by
      unfold counterAfterRows
      rw [if_neg hch]
    have hmd := (not_rowsChanged_iff pinb s).mp hch
    refine ⟨?_, fun r => ?_⟩
    · rw [matrix_scan_debouncing, hc]
      split <;> omega
    · rw [matrix_scan_matrix, hc]
      by_cases h0 : s.debouncing = 0
      · simp only [h0, ne_eq, not_true_eq_false, false_and, if_false]
        rw [h.2 h0 r, hmd r]
      · have h1 : s.debouncing = 1 := by omega
        simp [h1]

/-- When the eight-bit store of `DEBOUNCE` is 0, a pass from a state whose counter
is 0 leaves the counter at 0 and the stable matrix as it was. -/
theorem scan_frozen_at_zero (D : Nat) (hD : D % 256 = 0) (pinb : Fin MATRIX_ROWS → Nat)
    (s : State) (h : s.debouncing = 0) :
    (matrix_scan D pinb s).2.debouncing = 0
      ∧ ∀ r, (matrix_scan D pinb s).2.matrix r = s.matrix r := by
  have hc : counterAfterRows D pinb s = 0 := by
    unfold counterAfterRows
    split
    · exact hD
    · exact h
  refine ⟨?_, fun r => ?_⟩
  · rw [matrix_scan_debouncing, hc]
    rfl
  · rw [matrix_scan_matrix, hc]
    rfl

theorem run_frozen_at_zero (D : Nat) (hD : D % 256 = 0)
    (inputs : List (Fin MATRIX_ROWS → Nat)) (s : State) (h : s.debouncing = 0) :
    (run_scans D inputs s).debouncing = 0
      ∧ ∀ r, (run_scans D inputs s).matrix r = s.matrix r := by
  induction inputs generalizing s with
  | nil => exact ⟨h, fun _ => rfl⟩
  | cons p rest ih =>
    obtain ⟨h1, h2⟩ := scan_frozen_at_zero D hD p s h
    obtain ⟨h3, h4⟩ := ih (matrix_scan D p s).2 h1
    rw [run_scans_cons]
    refine ⟨h3, fun r => ?_⟩
    rw [h4 r, h2 r]

/-- Passes that all read what the pending matrix already holds count the counter
down; once as many passes have run as the counter held, the state is settled on
those readings. -/
theorem run_steady (D : Nat) (rd : Fin MATRIX_ROWS → Nat)
    (inputs : List (Fin MATRIX_ROWS → Nat))
    (hall : ∀ p ∈ inputs, ∀ r, read_cols (p r) = rd r) (s : State)
    (hmd : ∀ r, s.matrix_debouncing r = rd r) (hle : s.debouncing ≤ inputs.length)
    (hsync : s.debouncing = 0 → ∀ r, s.matrix r = s.matrix_debouncing r) :
    (run_scans D inputs s).debouncing = 0
      ∧ ∀ r, (run_scans D inputs s).matrix r = rd r := by
  induction inputs generalizing s with
  | nil =>
    have h0 : s.debouncing = 0 := by simpa using hle
    exact ⟨h0, fun r => by rw [← hmd r]; exact hsync h0 r⟩
  | cons p rest ih =>
    have hp : ∀ r, read_cols (p r) = rd r := hall p (List.mem_cons_self _ _)
    have hc : counterAfterRows D p s = s.debouncing :=
      counterAfterRows_steady D p s (fun r => by rw [hmd r, hp r])
    have hlen : s.debouncing ≤ rest.length + 1 := by simpa using hle
    rw [run_scans_cons]
    apply ih (fun q hq => hall q (List.mem_cons_of_mem _ hq)) (matrix_scan D p s).2
    · intro r
      rw [matrix_scan_matrix_debouncing, hp r]
    · rw [matrix_scan_debouncing, hc]
      split <;> omega
    · intro h0 r
      rw [matrix_scan_debouncing, hc] at h0
      rw [matrix_scan_matrix, matrix_scan_matrix_debouncing, hc]
      by_cases hz : s.debouncing = 0
      · simp only [hz, ne_eq, not_true_eq_false, false_and, if_false]
        rw [hsync hz r, hmd r, hp r]
      · rw [if_pos hz] at h0
        rw [if_pos ⟨hz, h0⟩]

theorem matrix_is_modified_of_zero (s : State) (h : s.debouncing = 0) :
    matrix_is_modified s = true := by
  simp [matrix_is_modified, h]

theorem reachable_initState (D : Nat) : Reachable D (initState D) :=
  Reachable.start _ ⟨rfl, fun _ => ⟨rfl, rfl⟩⟩

/-! ## Claims -/

/-- C1, as stated, fails: with `DEBOUNCE = 1`, from the initial state, after the
second pass of the scenario (all rows 0, then row 0 = 1) `matrix_is_modified()`
is not false. -/
theorem scenario_second_pass_not_unstable :
    ¬ (matrix_is_modified (run_scans 1 [pinbIdle, pinbRow0Col0] (initState 1)) = false) := by
  decide

/-- C1, amended: with `DEBOUNCE = 1`, from an initial state, over three passes
whose raw samples are all rows 0, then row 0 = 1 and every other row 0, then the
same again: after the second pass `matrix_is_modified()` is already true with
`matrix_get_row(0) = 1` and `matrix_get_row(1) = 0`, and after the third pass
`matrix_is_modified()` is true, `matrix_get_row(0) = 1` and
`matrix_get_row(1) = 0`. -/
theorem scenario_threshold_one (s : State) (p1 p2 p3 : Fin MATRIX_ROWS → Nat)
    (hs : IsInitial 1 s)
    (_h1 : ∀ r, read_cols (p1 r) = 0)
    (h2 : ∀ r, read_cols (p2 r) = if r = 0 then 1 else 0)
    (h3 : ∀ r, read_cols (p3 r) = if r = 0 then 1 else 0) :
    (matrix_is_modified (run_scans 1 [p1, p2] s) = true
        ∧ matrix_get_row (run_scans 1 [p1, p2] s) 0 = 1
        ∧ matrix_get_row (run_scans 1 [p1, p2] s) 1 = 0)
      ∧ (matrix_is_modified (run_scans 1 [p1, p2, p3] s) = true
        ∧ matrix_get_row (run_scans 1 [p1, p2, p3] s) 0 = 1
        ∧ matrix_get_row (run_scans 1 [p1, p2, p3] s) 1 = 0) := by
  have r0 : SettledInSync 1 s := settledInSync_initial 1 s hs
  have hD : 1 % 256 ≠ 0 := by decide
  have r1 := settledInSync_matrix_scan 1 hD p1 s r0
  have r2 := settledInSync_matrix_scan 1 hD p2 _ r1
  have q2 := scan_publishes_at_one p2 _ r1
  have q3 := scan_publishes_at_one p3 _ r2
  obtain ⟨d2, m2⟩ := q2
  obtain ⟨d3, m3⟩ := q3
  rw [run_scans_cons, run_scans_cons, run_scans_nil, run_scans_cons, run_scans_cons,
    run_scans_cons, run_scans_nil]
  unfold matrix_get_row
  refine ⟨⟨?_, ?_, ?_⟩, ?_, ?_, ?_⟩
  · exact matrix_is_modified_of_zero _ d2
  · rw [m2 0, h2 0]
    rfl
  · rw [m2 1, h2 1]
    rfl
  · exact matrix_is_modified_of_zero _ d3
  · rw [m3 0, h3 0]
    rfl
  · rw [m3 1, h3 1]
    rfl

/-- Witness of C1 amended: the scenario run from the reset state with the samples
`0xFF` (nothing closed) and `0xFE` (column 0 closed). -/
theorem scenario_threshold_one_witness :
    IsInitial 1 (initState 1)
      ∧ (∀ r, read_cols (pinbIdle r) = 0)
      ∧ (∀ r, read_cols (pinbRow0Col0 r) = if r = 0 then 1 else 0)
      ∧ (matrix_is_modified (run_scans 1 [pinbIdle, pinbRow0Col0] (initState 1)) = true
        ∧ matrix_get_row (run_scans 1 [pinbIdle, pinbRow0Col0] (initState 1)) 0 = 1
        ∧ matrix_get_row (run_scans 1 [pinbIdle, pinbRow0Col0] (initState 1)) 1 = 0)
      ∧ (matrix_is_modified
            (run_scans 1 [pinbIdle, pinbRow0Col0, pinbRow0Col0] (initState 1)) = true
        ∧ matrix_get_row
            (run_scans 1 [pinbIdle, pinbRow0Col0, pinbRow0Col0] (initState 1)) 0 = 1
        ∧ matrix_get_row
            (run_scans 1 [pinbIdle, pinbRow0Col0, pinbRow0Col0] (initState 1)) 1 = 0) :=
  have hs : IsInitial 1 (initState 1) := ⟨rfl, fun _ => ⟨rfl, rfl⟩⟩
  have h1 : ∀ r, read_cols (pinbIdle r) = 0 := by decide
  have h2 : ∀ r, read_cols (pinbRow0Col0 r) = if r = 0 then 1 else 0 := by decide
  ⟨hs, h1, h2,
    scenario_threshold_one (initState 1) pinbIdle pinbRow0Col0 pinbRow0Col0 hs h1 h2 h2⟩

/-- C2, as stated, fails: with `DEBOUNCE = 1`, from the settled all-zero state,
let bit 0 of row 0 toggle on in one pass (reading 1) and toggle back in the next,
then hold (reading 0).  The reading 1 is transient and differs from the held
value, yet after the pass that reads it the stable row 0 equals it; the held
value 0 is what the stable row shows from the next pass on. -/
theorem transient_published_at_threshold_one :
    matrix_is_modified (run_scans 1 [pinbIdle] (initState 1)) = true
      ∧ matrix_get_row (run_scans 1 [pinbIdle] (initState 1)) 0 = 0
      ∧ read_cols (pinbRow0Col0 0) ≠ read_cols (pinbIdle 0)
      ∧ matrix_get_row (run_scans 1 [pinbIdle, pinbRow0Col0] (initState 1)) 0
          = read_cols (pinbRow0Col0 0)
      ∧ matrix_get_row (run_scans 1 [pinbIdle, pinbRow0Col0, pinbIdle] (initState 1)) 0
          = read_cols (pinbIdle 0)
      ∧ matrix_get_row
          (run_scans 1 [pinbIdle, pinbRow0Col0, pinbIdle, pinbIdle] (initState 1)) 0
          = read_cols (pinbIdle 0) := by
  decide

/-- C2, amended: with `DEBOUNCE = 1`, from every reachable state and for every
sequence of passes, the stable matrix after each pass equals the readings of that
same pass.  So while a bit toggles on each of K consecutive passes the stable
matrix takes each transient value in the pass that reads it, and it takes the
final held value in the pass of the last transition and keeps it while the
input holds. -/
theorem stable_follows_reading_at_threshold_one (s : State) (hs : Reachable 1 s)
    (earlier : List (Fin MATRIX_ROWS → Nat)) (pinb : Fin MATRIX_ROWS → Nat)
    (r : Fin MATRIX_ROWS) :
    matrix_get_row (run_scans 1 (earlier ++ [pinb]) s) r = read_cols (pinb r) := by
  have hD : 1 % 256 ≠ 0 := by decide
  have hr := reachable_run_scans 1 earlier s hs
  have hinv := settledInSync_of_reachable 1 hD _ hr
  rw [run_scans_append_single]
  exact (scan_publishes_at_one pinb _ hinv).2 r

/-- Witness of C2 amended: the reset state, one earlier idle pass, then a pass
reading column 0 of row 0 closed. -/
theorem stable_follows_reading_at_threshold_one_witness :
    Reachable 1 (initState 1)
      ∧ matrix_get_row (run_scans 1 ([pinbIdle] ++ [pinbRow0Col0]) (initState 1)) 0
          = read_cols (pinbRow0Col0 0) :=
  ⟨reachable_initState 1,
    stable_follows_reading_at_threshold_one (initState 1) (reachable_initState 1)
      [pinbIdle] pinbRow0Col0 0⟩

/-- C3, as stated, fails: `DEBOUNCE = 256` is at least 1, but the eight-bit
counter stores it as 0.  From the reset state, 256 passes that all read column 0
of row 0 closed leave `matrix_get_row(0)` at 0 instead of the steady reading 1. -/
theorem steady_input_not_published_at_256 :
    Reachable 256 (initState 256)
      ∧ matrix_get_row
          (run_scans 256 (List.replicate 256 pinbRow0Col0) (initState 256)) 0
          ≠ read_cols (pinbRow0Col0 0) := by
  refine ⟨reachable_initState 256, ?_⟩
  have hD : 256 % 256 = 0 := by decide
  have h0 : (initState 256).debouncing = 0 := by decide
  have hfrozen : ∀ inputs, matrix_get_row (run_scans 256 inputs (initState 256)) 0 = 0 :=
    fun inputs => (run_frozen_at_zero 256 hD inputs (initState 256) h0).2 0
  rw [hfrozen]
  decide

/-- C3, amended: for every `DEBOUNCE >= 1` whose eight-bit store is not 0
(`DEBOUNCE % 256 != 0`, in particular every `DEBOUNCE` from 1 to 255), every
reachable state and every fixed assignment `rd` of column readings to rows, after
`DEBOUNCE` consecutive passes that all read `rd`, `matrix_is_modified()` is true
and `matrix_get_row(r) = rd r` for every row. -/
theorem steady_input_converges (D : Nat) (hD : D % 256 ≠ 0) (s : State)
    (hs : Reachable D s) (rd : Fin MATRIX_ROWS → Nat)
    (inputs : List (Fin MATRIX_ROWS → Nat)) (hlen : inputs.length = D)
    (hall : ∀ p ∈ inputs, ∀ r, read_cols (p r) = rd r) :
    matrix_is_modified (run_scans D inputs s) = true
      ∧ ∀ r, matrix_get_row (run_scans D inputs s) r = rd r := by
  have hinv := settledInSync_of_reachable D hD s hs
  cases inputs with
  | nil =>
    exfalso
    apply hD
    rw [← hlen]
    rfl
  | cons p rest =>
    have hp : ∀ r, read_cols (p r) = rd r := hall p (List.mem_cons_self _ _)
    have hinv1 := settledInSync_matrix_scan D hD p s hinv
    have hDle : D % 256 ≤ D := Nat.mod_le _ _
    have hlen1 : rest.length + 1 = D := by simpa using hlen
    have hc := counterAfterRows_le D p s hinv.1
    have hd1 : (matrix_scan D p s).2.debouncing ≤ rest.length := by
      rw [matrix_scan_debouncing]
      split <;> omega
    have hrun := run_steady D rd rest (fun q hq => hall q (List.mem_cons_of_mem _ hq))
      (matrix_scan D p s).2
      (fun r => by rw [matrix_scan_matrix_debouncing, hp r]) hd1 hinv1.2
    rw [run_scans_cons]
    exact ⟨matrix_is_modified_of_zero _ hrun.1, hrun.2⟩

/-- Witness of C3 amended: `DEBOUNCE = 2`, the reset state, two passes reading
column 0 of row 0 closed. -/
theorem steady_input_converges_witness :
    2 % 256 ≠ 0 ∧ Reachable 2 (initState 2)
      ∧ matrix_is_modified (run_scans 2 [pinbRow0Col0, pinbRow0Col0] (initState 2)) = true
      ∧ ∀ r, matrix_get_row (run_scans 2 [pinbRow0Col0, pinbRow0Col0] (initState 2)) r
          = read_cols (pinbRow0Col0 r) :=
  ⟨by decide, reachable_initState 2,
    steady_input_converges 2 (by decide) (initState 2) (reachable_initState 2)
      (fun r => read_cols (pinbRow0Col0 r)) [pinbRow0Col0, pinbRow0Col0] rfl
      (by
        intro p hp r
        simp only [List.mem_cons, List.mem_singleton, List.mem_nil_iff, or_false,
          or_self] at hp
        rw [hp])⟩

/-- C4: after one `matrix_scan` pass, from every state and for every input,
either every row of `matrix` is as before the pass, or every row of `matrix`
equals the same row of `matrix_debouncing`, which holds the reading of this pass,
and the counter is 0.  No pass updates some rows and not others. -/
theorem whole_matrix_promotion (D : Nat) (pinb : Fin MATRIX_ROWS → Nat) (s : State) :
    (∀ r, (matrix_scan D pinb s).2.matrix r = s.matrix r)
      ∨ ((∀ r, (matrix_scan D pinb s).2.matrix r = (matrix_scan D pinb s).2.matrix_debouncing r
              ∧ (matrix_scan D pinb s).2.matrix_debouncing r = read_cols (pinb r))
          ∧ (matrix_scan D pinb s).2.debouncing = 0) := by
  by_cases h : counterAfterRows D pinb s ≠ 0 ∧ (counterAfterRows D pinb s + 255) % 256 = 0
  · right
    refine ⟨fun r => ⟨?_, matrix_scan_matrix_debouncing D pinb s r⟩, ?_⟩
    · rw [matrix_scan_matrix, matrix_scan_matrix_debouncing, if_pos h]
    · rw [matrix_scan_debouncing, if_pos h.1]
      exact h.2
  · left
    intro r
    rw [matrix_scan_matrix, if_neg h]

/-- C5, as stated, fails: from the reset state with `DEBOUNCE = 1`, a pass in which
no row reads differently from `matrix_debouncing` still returns non-zero. -/
theorem scan_return_not_change_flag :
    ¬ ((matrix_scan 1 pinbIdle (initState 1)).1 ≠ 0
        ↔ ∃ r, read_cols (pinbIdle r) ≠ (initState 1).matrix_debouncing r) := by
  decide

/-- C5, amended: `matrix_scan` returns 1 for every state and input, whether or not
a row read differently from its entry of `matrix_debouncing`. -/
theorem matrix_scan_returns_one (D : Nat) (pinb : Fin MATRIX_ROWS → Nat) (s : State) :
    (matrix_scan D pinb s).1 = 1 := rfl

/-- C6, the code at the failing input: with `DEBOUNCE = 0`, from the reset state,
passes that read column 0 of row 0 closed (reading 1) leave `matrix_get_row(0)`
at 0, however many of them run. -/
theorem no_debounce_never_publishes :
    read_cols (pinbRow0Col0 0) = 1
      ∧ ∀ n, matrix_get_row
          (run_scans 0 (List.replicate n pinbRow0Col0) (initState 0)) 0 = 0 := by
  refine ⟨by decide, fun n => ?_⟩
  have hD : 0 % 256 = 0 := by decide
  have h0 : (initState 0).debouncing = 0 := by decide
  exact (run_frozen_at_zero 0 hD (List.replicate n pinbRow0Col0) (initState 0) h0).2 0

/-- Bit `c` of `read_cols` is set exactly when `c` is a column and bit `c` of `PINB`
is clear. -/
theorem read_cols_testBit (pinb c : Nat) :
    (read_cols pinb).testBit c = (decide (c < MATRIX_COLS) && !pinb.testBit c) := by
  simp only [read_cols, Nat.testBit_and, Nat.testBit_xor]
  by_cases hc : c < MATRIX_COLS
  · have h255 : (0xFF : Nat).testBit c = true := by
      interval_cases c <;> decide
    have h63 : COL_MASK.testBit c = true := by
      interval_cases c <;> decide
    rw [h255, h63]
    simp [hc]
  · have h63 : COL_MASK.testBit c = false := by
      apply Nat.testBit_lt_two_pow
      calc COL_MASK < 2 ^ MATRIX_COLS := by decide
        _ ≤ 2 ^ c := Nat.pow_le_pow_right (by decide) (by omega)
    rw [h63]
    simp [hc]

/-- C7: for every value of `PINB`, bit `c` of `read_cols` is 1 exactly when bit `c`
of `PINB` is 0, for every `c < 6`; bits 6 and 7 are 0; and when column 2 is the
only column whose `PINB` bit is 0, the result is the value with only bit 2 set. -/
theorem read_cols_bit_mapping (pinb : Nat) :
    (∀ c, c < MATRIX_COLS → ((read_cols pinb).testBit c = true ↔ pinb.testBit c = false))
      ∧ (read_cols pinb).testBit 6 = false
      ∧ (read_cols pinb).testBit 7 = false
      ∧ ((∀ c, c < MATRIX_COLS → (pinb.testBit c = false ↔ c = 2))
          → read_cols pinb = 0b00000100) := by
  refine ⟨fun c hc => ?_, ?_, ?_, fun h => ?_⟩
  · rw [read_cols_testBit]
    simp [hc]
  · rw [read_cols_testBit]
    rfl
  · rw [read_cols_testBit]
    rfl
  · apply Nat.eq_of_testBit_eq
    intro i
    rw [read_cols_testBit]
    by_cases hi : i < MATRIX_COLS
    · have hb := h i hi
      interval_cases i
      · have hk : pinb.testBit 0 = true := by simpa using hb
        rw [hk]
        decide
      · have hk : pinb.testBit 1 = true := by simpa using hb
        rw [hk]
        decide
      · have hk : pinb.testBit 2 = false := by simpa using hb
        rw [hk]
        decide
      · have hk : pinb.testBit 3 = true := by simpa using hb
        rw [hk]
        decide
      · have hk : pinb.testBit 4 = true := by simpa using hb
        rw [hk]
        decide
      · have hk : pinb.testBit 5 = true := by simpa using hb
        rw [hk]
        decide
    · have h4 : (0b00000100 : Nat).testBit i = false := by
        apply Nat.testBit_lt_two_pow
        calc (0b00000100 : Nat) < 2 ^ MATRIX_COLS := by decide
          _ ≤ 2 ^ i := Nat.pow_le_pow_right (by decide) (by omega)
      rw [h4]
      simp [hi]

/-- Witness of C7: `PINB = 0b11111011`, column 2 alone pulled low. -/
theorem read_cols_bit_mapping_witness :
    (∀ c, c < MATRIX_COLS → ((0b11111011 : Nat).testBit c = false ↔ c = 2))
      ∧ read_cols 0b11111011 = 0b00000100 :=
  have h : ∀ c, c < MATRIX_COLS → ((0b11111011 : Nat).testBit c = false ↔ c = 2) := by
    intro c hc
    interval_cases c <;> decide
  ⟨h, (read_cols_bit_mapping 0b11111011).2.2.2 h⟩

theorem row_bitmask_lt (row : Nat) : row_bitmask.getD row 0 < 256 := by
  by_cases h : row < 6
  · interval_cases row <;> decide
  · have h6 : row_bitmask.length ≤ row := by
      simp only [row_bitmask, List.length_cons, List.length_nil]
      omega
    rw [List.getD_eq_default _ _ h6]
    decide

theorem row_bitmask_disjoint (row other : Nat) (hrow : row < 6) (hother : other < 6)
    (hne : other ≠ row) : row_bitmask.getD row 0 &&& row_bitmask.getD other 0 = 0 := by
  interval_cases row <;> interval_cases other <;> first | exact absurd rfl hne | decide

theorem select_row_registers (row : Nat) (s : State) (hrow : row < 6) :
    (select_row row s).DDRD = set_val s.DDRD (row_bitmask.getD row 0)
      ∧ (select_row row s).PORTD = clear_val s.PORTD (row_bitmask.getD row 0) := by
  unfold select_row
  rw [if_pos ⟨Nat.zero_le _, hrow⟩]
  exact ⟨rfl, rfl⟩

/-- C8, as stated, fails: take the register state in which row 0 is already driven
low (the reset state after `select_row(0)`).  After `select_row(1)` the pin of
row 0 is still output-low, not high-impedance, so row 1 is not the only driven
row. -/
theorem select_row_keeps_driven_row :
    pinOutputLow (select_row 1 (select_row 0 (initState 1))) (row_bitmask.getD 1 0)
      ∧ pinOutputLow (select_row 1 (select_row 0 (initState 1))) (row_bitmask.getD 0 0)
      ∧ ¬ pinHiZ (select_row 1 (select_row 0 (initState 1))) (row_bitmask.getD 0 0) := by
  decide

/-- C8, amended: for every register state in which the other five row pins are
high-impedance (as they are after `unselect_rows`) and every `row < 6`, after
`select_row(row)` the pin `row_bitmask[row]` is output-low and every other row
pin is high-impedance, so it is the only driven one of the six row pins. -/
theorem select_row_only_row_driven (s : State) (row : Nat) (hrow : row < 6)
    (hothers : ∀ other, other < 6 → other ≠ row → pinHiZ s (row_bitmask.getD other 0)) :
    pinOutputLow (select_row row s) (row_bitmask.getD row 0)
      ∧ ∀ other, other < 6 → other ≠ row →
          pinHiZ (select_row row s) (row_bitmask.getD other 0)
            ∧ ¬ pinOutputLow (select_row row s) (row_bitmask.getD other 0) := by
  obtain ⟨hd, hp⟩ := select_row_registers row s hrow
  refine ⟨⟨?_, ?_⟩, fun other ho hne => ?_⟩
  · rw [hd]
    exact set_val_and_self _ _
  · rw [hp]
    exact clear_val_and_mask _ _ (row_bitmask_lt row)
  · have hz : pinHiZ (select_row row s) (row_bitmask.getD other 0) := by
      obtain ⟨h1, h2⟩ := hothers other ho hne
      refine ⟨?_, ?_⟩
      · rw [hd, set_val_and_of_disjoint _ _ _ (row_bitmask_disjoint row other hrow ho hne)]
        exact h1
      · rw [hp]
        exact clear_val_and_of_zero _ _ _ h2
    refine ⟨hz, fun hlow => ?_⟩
    have hm : row_bitmask.getD other 0 = 0 := by rw [← hlow.1, hz.1]
    revert hm
    interval_cases other <;> decide

/-- Witness of C8 amended: the reset state, where all row pins are high-impedance,
and row 2. -/
theorem select_row_only_row_driven_witness :
    (2 < 6)
      ∧ (∀ other, other < 6 → other ≠ 2 →
          pinHiZ (initState 1) (row_bitmask.getD other 0))
      ∧ pinOutputLow (select_row 2 (initState 1)) (row_bitmask.getD 2 0)
      ∧ ∀ other, other < 6 → other ≠ 2 →
          pinHiZ (select_row 2 (initState 1)) (row_bitmask.getD other 0)
            ∧ ¬ pinOutputLow (select_row 2 (initState 1)) (row_bitmask.getD other 0) :=
  have h : ∀ other, other < 6 → other ≠ 2 →
      pinHiZ (initState 1) (row_bitmask.getD other 0) :=
    fun _ _ _ => ⟨Nat.zero_and _, Nat.zero_and _⟩
  ⟨by decide, h, select_row_only_row_driven (initState 1) 2 (by decide) h⟩

/-- C9: from every prior state, after `matrix_init` all six row pins are
high-impedance (the `DDRD` and `PORTD` bits of `ROW_MASK` are 0), all six column
pins are inputs with pull-up (the `DDRB` bits of `COL_MASK` are 0, the `PORTB`
bits of `COL_MASK` are 1), and for every row both `matrix` and
`matrix_debouncing` are 0, so `matrix_get_row` is 0 and `matrix_is_on` is false
for every column, whatever the platform's `int` shift yields. -/
theorem matrix_init_postcondition (s : State) :
    pinHiZ (matrix_init s) ROW_MASK
      ∧ (∀ row : Fin MATRIX_ROWS, pinHiZ (matrix_init s) (row_bitmask.getD row.val 0))
      ∧ (matrix_init s).DDRB &&& COL_MASK = 0
      ∧ (matrix_init s).PORTB &&& COL_MASK = COL_MASK
      ∧ ∀ r : Fin MATRIX_ROWS,
          (matrix_init s).matrix r = 0
            ∧ (matrix_init s).matrix_debouncing r = 0
            ∧ matrix_get_row (matrix_init s) r = 0
            ∧ ∀ (p : IntShift) (c : Nat), matrix_is_on p (matrix_init s) r c = false := by
  obtain ⟨hdd, hpd, hdb, hpb⟩ := matrix_init_registers s
  have hrows : pinHiZ (matrix_init s) ROW_MASK := by
    refine ⟨?_, ?_⟩
    · rw [hdd]
      exact clear_val_and_mask _ _ (by decide)
    · rw [hpd]
      exact clear_val_and_mask _ _ (by decide)
  refine ⟨hrows, fun row => ?_, ?_, ?_, fun r => ⟨?_, ?_, ?_, fun p c => ?_⟩⟩
  · have hsub : row_bitmask.getD row.val 0 &&& ROW_MASK = row_bitmask.getD row.val 0 := by
      fin_cases row <;> decide
    exact ⟨and_eq_zero_of_sub _ _ _ hrows.1 hsub, and_eq_zero_of_sub _ _ _ hrows.2 hsub⟩
  · rw [hdb]
    exact clear_val_and_mask _ _ (by decide)
  · rw [hpb]
    exact set_val_and_self _ _
  · exact matrix_init_matrix s r
  · exact matrix_init_matrix_debouncing s r
  · exact matrix_init_matrix s r
  · unfold matrix_is_on
    rw [matrix_init_matrix s r, Nat.zero_and]
    rfl

/-- C10: `matrix_init` is idempotent: for every state, calling it twice in a row
gives exactly the state that calling it once gives. -/
theorem matrix_init_idempotent (s : State) :
    matrix_init (matrix_init s) = matrix_init s := by
  obtain ⟨hdd, hpd, hdb, hpb⟩ := matrix_init_registers s
  obtain ⟨hdd2, hpd2, hdb2, hpb2⟩ := matrix_init_registers (matrix_init s)
  apply State.ext
  · rw [hdd2, hdd, clear_set_clear_set]
  · rw [hpd2, hpd, clear_clear]
  · rw [hdb2, hdb, clear_set_clear_set]
  · rw [hpb2, hpb, set_set]
  · rw [matrix_init_debouncing]
  · funext r
    rw [matrix_init_matrix, matrix_init_matrix]
  · funext r
    rw [matrix_init_matrix_debouncing, matrix_init_matrix_debouncing]

/-! ## Facts for the accessors -/

theorem and_one_shiftLeft_ne_zero (m c : Nat) :
    ((m &&& (1 <<< c)) != 0) = m.testBit c := by
  rw [Nat.one_shiftLeft]
  by_cases h : m.testBit c = true
  · have hne : m &&& 2 ^ c ≠ 0 := by
      intro h0
      have hb : (m &&& 2 ^ c).testBit c = true := by
        rw [Nat.testBit_and, h, Nat.testBit_two_pow_self]
        rfl
      rw [h0, Nat.zero_testBit] at hb
      exact Bool.false_ne_true hb
    rw [h]
    simpa using hne
  · have hf : m.testBit c = false := by simpa using h
    have h0 : m &&& 2 ^ c = 0 := by
      apply Nat.eq_of_testBit_eq
      intro i
      rw [Nat.testBit_and, Nat.zero_testBit, Nat.testBit_two_pow]
      by_cases hci : c = i
      · subst hci
        rw [hf]
        rfl
      · simp [hci]
    rw [hf, h0]
    rfl

theorem matrix_is_on_eq_testBit (p : IntShift) (s : State) (row : Fin MATRIX_ROWS)
    (col : Nat) (hcol : col < p.bits - 1) :
    matrix_is_on p s row col = (s.matrix row).testBit col := by
  unfold matrix_is_on shl_one
  rw [if_pos hcol]
  exact and_one_shiftLeft_ne_zero _ _

theorem read_cols_lt (pinb : Nat) : read_cols pinb < 2 ^ MATRIX_COLS := by
  have h : read_cols pinb ≤ COL_MASK := Nat.and_le_right
  have h63 : COL_MASK < 2 ^ MATRIX_COLS := by decide
  omega

/-- Rows of both matrices of a reachable state fit in `MATRIX_COLS` bits. -/
theorem rows_lt_of_reachable (D : Nat) (s : State) (h : Reachable D s) :
    ∀ r, s.matrix r < 2 ^ MATRIX_COLS ∧ s.matrix_debouncing r < 2 ^ MATRIX_COLS := by
  induction h with
  | start s h =>
    intro r
    rw [(h.2 r).1, (h.2 r).2]
    exact ⟨by decide, by decide⟩
  | init s _ _ =>
    intro r
    rw [matrix_init_matrix, matrix_init_matrix_debouncing]
    exact ⟨by decide, by decide⟩
  | scan s pinb _ ih =>
    intro r
    rw [matrix_scan_matrix, matrix_scan_matrix_debouncing]
    refine ⟨?_, read_cols_lt _⟩
    split
    · exact read_cols_lt _
    · exact (ih r).1

/-! ## Claims, continued -/

/-- C13: for every state and input, after one `matrix_scan` pass
`matrix_debouncing[r]` equals the raw column reading taken for row `r` in that
pass, for every row, whether or not the reading differed from the value held
before. -/
theorem pending_holds_latest_sample (D : Nat) (pinb : Fin MATRIX_ROWS → Nat) (s : State)
    (r : Fin MATRIX_ROWS) :
    (matrix_scan D pinb s).2.matrix_debouncing r = read_cols (pinb r) :=
  matrix_scan_matrix_debouncing D pinb s r

/-- C14: for every state, every row and every column below `MATRIX_COLS`,
`matrix_get_row(row)` equals `matrix[row]` and `matrix_is_on(row, col)` is true
exactly when bit `col` of `matrix_get_row(row)` is 1, on every platform.  Both
accessors are functions of the state that return a value only: their bodies
assign nothing. -/
theorem accessors_read_stable_matrix (p : IntShift) (s : State) (row : Fin MATRIX_ROWS)
    (col : Fin MATRIX_COLS) :
    matrix_get_row s row = s.matrix row
      ∧ (matrix_is_on p s row col.val = true
          ↔ (matrix_get_row s row).testBit col.val = true) := by
  refine ⟨rfl, ?_⟩
  have hb := p.bits_ge
  have hc : col.val < 6 := col.isLt
  rw [matrix_is_on_eq_testBit p s row col.val (by omega)]
  rfl

/-- C15: `matrix_is_modified` returns true exactly when the counter `debouncing`
is 0, for every state. -/
theorem matrix_is_modified_iff (s : State) :
    matrix_is_modified s = true ↔ s.debouncing = 0 := by
  unfold matrix_is_modified
  by_cases h : s.debouncing = 0 <;> simp [h]

/-- C20, as stated, fails: `matrix_is_on` shifts an `int`, and for a column at or
beyond the width of `int` C leaves `1 << col` undefined.  On a platform with a
32-bit `int` whose shift takes the count modulo 32, in the reachable state after
one pass in which every column of every row reads closed (rows of 63),
`matrix_is_on(0, 32)` is true although `32 >= MATRIX_COLS`. -/
theorem column_beyond_int_reported :
    Reachable 1 (matrix_scan 1 pinbAllLow (initState 1)).2
      ∧ (matrix_scan 1 pinbAllLow (initState 1)).2.matrix 0 = 63
      ∧ MATRIX_COLS ≤ 32
      ∧ matrix_is_on int32WrapShift (matrix_scan 1 pinbAllLow (initState 1)).2 0 32 = true :=
  ⟨Reachable.scan _ _ (reachable_initState 1), by decide, by decide, by decide⟩

/-- C20, amended: in every state reachable from the initial state by `matrix_init`
and `matrix_scan` with arbitrary values on `PINB`, every row of `matrix` and of
`matrix_debouncing` is below `2 ^ MATRIX_COLS = 64`, so `matrix_is_on(row, col)`
is false for every `col >= MATRIX_COLS` at which `1 << col` is defined in `int`
(`col < bits - 1`; with the 16-bit `int` of the AVR, `col` from 6 to 14), on
every platform. -/
theorem only_column_bits_published (D : Nat) (s : State) (hs : Reachable D s) :
    (∀ r, s.matrix r < 2 ^ MATRIX_COLS ∧ s.matrix_debouncing r < 2 ^ MATRIX_COLS)
      ∧ ∀ (p : IntShift) (r : Fin MATRIX_ROWS) (col : Nat),
          MATRIX_COLS ≤ col → col < p.bits - 1 → matrix_is_on p s r col = false := by
  have h := rows_lt_of_reachable D s hs
  refine ⟨h, fun p r col hcol hdef => ?_⟩
  rw [matrix_is_on_eq_testBit p s r col hdef]
  apply Nat.testBit_lt_two_pow
  calc s.matrix r < 2 ^ MATRIX_COLS := (h r).1
    _ ≤ 2 ^ col := Nat.pow_le_pow_right (by decide) hcol

/-- Witness of C20 amended: the state after one pass, from the reset state, in
which all eight pins of port B read low; columns 6 and 14 with a 16-bit `int`. -/
theorem only_column_bits_published_witness :
    Reachable 1 (matrix_scan 1 pinbAllLow (initState 1)).2
      ∧ (∀ r, (matrix_scan 1 pinbAllLow (initState 1)).2.matrix r < 2 ^ MATRIX_COLS
          ∧ (matrix_scan 1 pinbAllLow (initState 1)).2.matrix_debouncing r
              < 2 ^ MATRIX_COLS)
      ∧ (MATRIX_COLS ≤ 14 ∧ 14 < int16ZeroShift.bits - 1)
      ∧ matrix_is_on int16ZeroShift (matrix_scan 1 pinbAllLow (initState 1)).2 0 6 = false
      ∧ matrix_is_on int16ZeroShift (matrix_scan 1 pinbAllLow (initState 1)).2 0 14 = false :=
  have hr : Reachable 1 (matrix_scan 1 pinbAllLow (initState 1)).2 :=
    Reachable.scan _ _ (reachable_initState 1)
  have h := only_column_bits_published 1 _ hr
  ⟨hr, h.1, ⟨by decide, by decide⟩,
    h.2 int16ZeroShift 0 6 (by decide) (by decide),
    h.2 int16ZeroShift 0 14 (by decide) (by decide)⟩

/-! ## Row pins during and after a pass -/

theorem unselect_rows_hiZ (s : State) : pinHiZ (unselect_rows s) ROW_MASK := by
  refine ⟨?_, ?_⟩
  · show clear_val (set_val s.DDRD ROW_MASK) ROW_MASK &&& ROW_MASK = 0
    exact clear_val_and_mask _ _ (by decide)
  · show clear_val s.PORTD ROW_MASK &&& ROW_MASK = 0
    exact clear_val_and_mask _ _ (by decide)

theorem scan_row_hiZ (D : Nat) (pinb : Fin MATRIX_ROWS → Nat) (s : State)
    (i : Fin MATRIX_ROWS) : pinHiZ (scan_row D pinb s i) ROW_MASK := by
  unfold scan_row
  exact unselect_rows_hiZ _

theorem scan_rows_hiZ (D : Nat) (pinb : Fin MATRIX_ROWS → Nat)
    (rows : List (Fin MATRIX_ROWS)) (s : State) (h : rows ≠ [] ∨ pinHiZ s ROW_MASK) :
    pinHiZ (scan_rows D pinb rows s) ROW_MASK := by
  induction rows generalizing s with
  | nil =>
    rcases h with h | h
    · exact absurd rfl h
    · exact h
  | cons i rest ih => exact ih (scan_row D pinb s i) (Or.inr (scan_row_hiZ D pinb s i))

theorem debounce_step_registers (s : State) :
    (debounce_step s).DDRD = s.DDRD ∧ (debounce_step s).PORTD = s.PORTD
      ∧ (debounce_step s).DDRB = s.DDRB ∧ (debounce_step s).PORTB = s.PORTB := by
  unfold debounce_step
  by_cases h0 : s.debouncing = 0
  · simp [h0]
  · by_cases h1 : (s.debouncing + 255) % 256 = 0
    · obtain ⟨-, -, h3, h4, h5, h6⟩ := promote_rows_frame (List.finRange MATRIX_ROWS)
        { s with debouncing := (s.debouncing + 255) % 256 }
      simp only [h0, h1, ne_eq, not_false_eq_true, not_true_eq_false, if_true, if_false]
      exact ⟨h3, h4, h5, h6⟩
    · simp [h0, h1]

theorem matrix_scan_hiZ (D : Nat) (pinb : Fin MATRIX_ROWS → Nat) (s : State) :
    pinHiZ (matrix_scan D pinb s).2 ROW_MASK := by
  have hrows := scan_rows_hiZ D pinb (List.finRange MATRIX_ROWS) s (Or.inl (by decide))
  obtain ⟨h1, h2, -, -⟩ :=
    debounce_step_registers (scan_rows D pinb (List.finRange MATRIX_ROWS) s)
  show (debounce_step _).DDRD &&& ROW_MASK = 0 ∧ (debounce_step _).PORTD &&& ROW_MASK = 0
  rw [h1, h2]
  exact hrows

theorem run_scans_hiZ (D : Nat) (inputs : List (Fin MATRIX_ROWS → Nat)) (s : State)
    (h : pinHiZ s ROW_MASK) : pinHiZ (run_scans D inputs s) ROW_MASK := by
  induction inputs generalizing s with
  | nil => exact h
  | cons p rest ih =>
    rw [run_scans_cons]
    exact ih _ (matrix_scan_hiZ D p s)

theorem row_bitmask_sub (row : Nat) :
    row_bitmask.getD row 0 &&& ROW_MASK = row_bitmask.getD row 0 := by
  by_cases h : row < 6
  · interval_cases row <;> decide
  · have h6 : row_bitmask.length ≤ row := by
      simp only [row_bitmask, List.length_cons, List.length_nil]
      omega
    rw [List.getD_eq_default _ _ h6]
    decide

theorem pinHiZ_row_of_all (s : State) (row : Nat) (h : pinHiZ s ROW_MASK) :
    pinHiZ s (row_bitmask.getD row 0) :=
  ⟨and_eq_zero_of_sub _ _ _ h.1 (row_bitmask_sub row),
    and_eq_zero_of_sub _ _ _ h.2 (row_bitmask_sub row)⟩

/-- From a state with all row pins high-impedance, `select_row` drives the named
row low and leaves the others high-impedance. -/
theorem select_row_from_hiZ (s : State) (row : Nat) (hrow : row < 6)
    (h : pinHiZ s ROW_MASK) :
    pinOutputLow (select_row row s) (row_bitmask.getD row 0)
      ∧ ∀ other, other < 6 → other ≠ row →
          pinHiZ (select_row row s) (row_bitmask.getD other 0) := by
  obtain ⟨hd, hp⟩ := select_row_registers row s hrow
  refine ⟨⟨?_, ?_⟩, fun other ho hne => ⟨?_, ?_⟩⟩
  · rw [hd]
    exact set_val_and_self _ _
  · rw [hp]
    exact clear_val_and_mask _ _ (row_bitmask_lt row)
  · rw [hd, set_val_and_of_disjoint _ _ _ (row_bitmask_disjoint row other hrow ho hne)]
    exact (pinHiZ_row_of_all s other h).1
  · rw [hp]
    exact clear_val_and_of_zero _ _ _ (pinHiZ_row_of_all s other h).2

theorem scan_rows_append (D : Nat) (pinb : Fin MATRIX_ROWS → Nat)
    (a b : List (Fin MATRIX_ROWS)) (s : State) :
    scan_rows D pinb (a ++ b) s = scan_rows D pinb b (scan_rows D pinb a s) := by
  simp [scan_rows, List.foldl_append]

/-- The row loop of a pass, cut at row `i`: the rows before `i`, then the body for
row `i` (which starts by selecting the row, the state `state_at_read`), then the
rows after `i`. -/
theorem scan_rows_at (D : Nat) (pinb : Fin MATRIX_ROWS → Nat) (s : State)
    (i : Fin MATRIX_ROWS) :
    scan_rows D pinb (List.finRange MATRIX_ROWS) s
      = scan_rows D pinb ((List.finRange MATRIX_ROWS).drop (i.val + 1))
          (scan_row D pinb
            (scan_rows D pinb ((List.finRange MATRIX_ROWS).take i.val) s) i) := by
  have hsplit : List.finRange MATRIX_ROWS
      = (List.finRange MATRIX_ROWS).take i.val
          ++ ([i] ++ (List.finRange MATRIX_ROWS).drop (i.val + 1)) := by
    fin_cases i <;> rfl
  conv => lhs; rw [hsplit]
  rw [scan_rows_append, scan_rows_append]
  rfl

/-- C12: for every state whose counter is 0 and every input whose reading of each
row equals that row of `matrix_debouncing`, one `matrix_scan` pass leaves
`matrix`, `matrix_debouncing` and the counter unchanged, and leaves every row
line high-impedance. -/
theorem settled_unchanged_noop (D : Nat) (pinb : Fin MATRIX_ROWS → Nat) (s : State)
    (h0 : s.debouncing = 0)
    (hrd : ∀ r, read_cols (pinb r) = s.matrix_debouncing r) :
    (matrix_scan D pinb s).2.matrix = s.matrix
      ∧ (matrix_scan D pinb s).2.matrix_debouncing = s.matrix_debouncing
      ∧ (matrix_scan D pinb s).2.debouncing = s.debouncing
      ∧ pinHiZ (matrix_scan D pinb s).2 ROW_MASK
      ∧ ∀ row : Fin MATRIX_ROWS,
          pinHiZ (matrix_scan D pinb s).2 (row_bitmask.getD row.val 0) := by
  have hc : counterAfterRows D pinb s = 0 := by
    rw [counterAfterRows_steady D pinb s (fun r => (hrd r).symm)]
    exact h0
  have hz := matrix_scan_hiZ D pinb s
  refine ⟨?_, ?_, ?_, hz, fun row => pinHiZ_row_of_all _ _ hz⟩
  · funext r
    rw [matrix_scan_matrix, hc]
    rfl
  · funext r
    rw [matrix_scan_matrix_debouncing, hrd r]
  · rw [matrix_scan_debouncing, hc, h0]
    rfl

/-- Witness of C12: the settled all-zero state reached from the reset state by one
idle pass, scanned with idle input again. -/
theorem settled_unchanged_noop_witness :
    (matrix_scan 1 pinbIdle (initState 1)).2.debouncing = 0
      ∧ (∀ r, read_cols (pinbIdle r)
          = (matrix_scan 1 pinbIdle (initState 1)).2.matrix_debouncing r)
      ∧ (matrix_scan 1 pinbIdle (matrix_scan 1 pinbIdle (initState 1)).2).2.matrix
          = (matrix_scan 1 pinbIdle (initState 1)).2.matrix
      ∧ (matrix_scan 1 pinbIdle (matrix_scan 1 pinbIdle (initState 1)).2).2.debouncing
          = (matrix_scan 1 pinbIdle (initState 1)).2.debouncing :=
  have h0 : (matrix_scan 1 pinbIdle (initState 1)).2.debouncing = 0 := by decide
  have hrd : ∀ r, read_cols (pinbIdle r)
      = (matrix_scan 1 pinbIdle (initState 1)).2.matrix_debouncing r := by decide
  have h := settled_unchanged_noop 1 pinbIdle (matrix_scan 1 pinbIdle (initState 1)).2
    h0 hrd
  ⟨h0, hrd, h.1, h.2.2.1⟩

/-- C16: from any state in which all six row pins are high-impedance, during
`matrix_scan` at the moment the columns are read for row `i` the pin
`row_bitmask[i]` is output-low and the other five row pins are high-impedance,
for every row `i`; when `matrix_scan` returns all six row pins are
high-impedance again, and they are so after any number of passes. -/
theorem one_row_driven_per_sample (D : Nat) (pinb : Fin MATRIX_ROWS → Nat) (s : State)
    (h : pinHiZ s ROW_MASK) :
    (∀ i : Fin MATRIX_ROWS,
        pinOutputLow (state_at_read D pinb s i) (row_bitmask.getD i.val 0)
          ∧ ∀ j : Fin MATRIX_ROWS, j ≠ i →
              pinHiZ (state_at_read D pinb s i) (row_bitmask.getD j.val 0))
      ∧ pinHiZ (matrix_scan D pinb s).2 ROW_MASK
      ∧ (∀ j : Fin MATRIX_ROWS,
          pinHiZ (matrix_scan D pinb s).2 (row_bitmask.getD j.val 0))
      ∧ ∀ inputs, pinHiZ (run_scans D inputs s) ROW_MASK := by
  refine ⟨fun i => ?_, matrix_scan_hiZ D pinb s,
    fun j => pinHiZ_row_of_all _ _ (matrix_scan_hiZ D pinb s),
    fun inputs => run_scans_hiZ D inputs s h⟩
  have hbefore := scan_rows_hiZ D pinb ((List.finRange MATRIX_ROWS).take i.val) s (Or.inr h)
  obtain ⟨hlow, hothers⟩ := select_row_from_hiZ _ i.val i.isLt hbefore
  refine ⟨hlow, fun j hji => hothers j.val j.isLt ?_⟩
  intro hv
  exact hji (Fin.ext hv)

/-- Witness of C16: the reset state, in which all row pins are high-impedance,
and a pass that reads column 0 of row 0 closed; shown for row 3. -/
theorem one_row_driven_per_sample_witness :
    pinHiZ (initState 1) ROW_MASK
      ∧ pinOutputLow (state_at_read 1 pinbRow0Col0 (initState 1) 3) (row_bitmask.getD 3 0)
      ∧ pinHiZ (state_at_read 1 pinbRow0Col0 (initState 1) 3) (row_bitmask.getD 0 0)
      ∧ pinHiZ (matrix_scan 1 pinbRow0Col0 (initState 1)).2 ROW_MASK :=
  have h : pinHiZ (initState 1) ROW_MASK := ⟨Nat.zero_and _, Nat.zero_and _⟩
  have hall := one_row_driven_per_sample 1 pinbRow0Col0 (initState 1) h
  ⟨h, (hall.1 3).1, (hall.1 3).2 0 (by decide), hall.2.1⟩

/-! ## Pins outside the matrix -/

theorem set_val_testBit_of_not (x m i : Nat) (hm : m.testBit i = false) :
    (set_val x m).testBit i = x.testBit i := by
  simp [set_val, Nat.testBit_or, hm]

theorem clear_val_testBit_of_not (x m i : Nat) (hm : m.testBit i = false) (hi : i < 8) :
    (clear_val x m).testBit i = x.testBit i := by
  have h255 : (0xFF : Nat).testBit i = true := by
    interval_cases i <;> decide
  simp [clear_val, Nat.testBit_and, Nat.testBit_xor, hm, h255]

theorem row_bitmask_testBit (row : Nat) :
    (row_bitmask.getD row 0).testBit 2 = false
      ∧ (row_bitmask.getD row 0).testBit 3 = false := by
  by_cases h : row < 6
  · interval_cases row <;> decide
  · have h6 : row_bitmask.length ≤ row := by
      simp only [row_bitmask, List.length_cons, List.length_nil]
      omega
    rw [List.getD_eq_default _ _ h6]
    decide

theorem outsidePinsEq_refl (s : State) : outsidePinsEq s s :=
  ⟨⟨rfl, rfl⟩, ⟨rfl, rfl⟩, ⟨rfl, rfl⟩, ⟨rfl, rfl⟩⟩

theorem outsidePinsEq_trans (s t u : State) (h1 : outsidePinsEq s t)
    (h2 : outsidePinsEq t u) : outsidePinsEq s u := by
  obtain ⟨⟨a1, a2⟩, ⟨a3, a4⟩, ⟨a5, a6⟩, ⟨a7, a8⟩⟩ := h1
  obtain ⟨⟨b1, b2⟩, ⟨b3, b4⟩, ⟨b5, b6⟩, ⟨b7, b8⟩⟩ := h2
  exact ⟨⟨b1.trans a1, b2.trans a2⟩, ⟨b3.trans a3, b4.trans a4⟩,
    ⟨b5.trans a5, b6.trans a6⟩, ⟨b7.trans a7, b8.trans a8⟩⟩

theorem outsidePinsEq_of_registers (s t : State) (h1 : t.DDRD = s.DDRD)
    (h2 : t.PORTD = s.PORTD) (h3 : t.DDRB = s.DDRB) (h4 : t.PORTB = s.PORTB) :
    outsidePinsEq s t := by
  unfold outsidePinsEq
  rw [h1, h2, h3, h4]
  exact ⟨⟨rfl, rfl⟩, ⟨rfl, rfl⟩, ⟨rfl, rfl⟩, ⟨rfl, rfl⟩⟩

theorem unselect_rows_outside (s : State) : outsidePinsEq s (unselect_rows s) := by
  have m2 : ROW_MASK.testBit 2 = false := by decide
  have m3 : ROW_MASK.testBit 3 = false := by decide
  refine ⟨⟨?_, ?_⟩, ⟨?_, ?_⟩, ⟨rfl, rfl⟩, ⟨rfl, rfl⟩⟩
  · show (clear_val (set_val s.DDRD ROW_MASK) ROW_MASK).testBit 2 = _
    rw [clear_val_testBit_of_not _ _ _ m2 (by decide), set_val_testBit_of_not _ _ _ m2]
  · show (clear_val (set_val s.DDRD ROW_MASK) ROW_MASK).testBit 3 = _
    rw [clear_val_testBit_of_not _ _ _ m3 (by decide), set_val_testBit_of_not _ _ _ m3]
  · show (clear_val s.PORTD ROW_MASK).testBit 2 = _
    rw [clear_val_testBit_of_not _ _ _ m2 (by decide)]
  · show (clear_val s.PORTD ROW_MASK).testBit 3 = _
    rw [clear_val_testBit_of_not _ _ _ m3 (by decide)]

theorem init_cols_outside (s : State) : outsidePinsEq s (init_cols s) := by
  have m6 : COL_MASK.testBit 6 = false := by decide
  have m7 : COL_MASK.testBit 7 = false := by decide
  refine ⟨⟨rfl, rfl⟩, ⟨rfl, rfl⟩, ⟨?_, ?_⟩, ⟨?_, ?_⟩⟩
  · show (clear_val (set_val s.DDRB COL_MASK) COL_MASK).testBit 6 = _
    rw [clear_val_testBit_of_not _ _ _ m6 (by decide), set_val_testBit_of_not _ _ _ m6]
  · show (clear_val (set_val s.DDRB COL_MASK) COL_MASK).testBit 7 = _
    rw [clear_val_testBit_of_not _ _ _ m7 (by decide), set_val_testBit_of_not _ _ _ m7]
  · show (set_val s.PORTB COL_MASK).testBit 6 = _
    rw [set_val_testBit_of_not _ _ _ m6]
  · show (set_val s.PORTB COL_MASK).testBit 7 = _
    rw [set_val_testBit_of_not _ _ _ m7]

theorem select_row_of_ge (row : Nat) (s : State) (h : 6 ≤ row) : select_row row s = s := by
  unfold select_row
  rw [if_neg]
  omega

theorem select_row_portB (row : Nat) (s : State) :
    (select_row row s).DDRB = s.DDRB ∧ (select_row row s).PORTB = s.PORTB := by
  unfold select_row
  split <;> exact ⟨rfl, rfl⟩

theorem select_row_outside (row : Nat) (s : State) : outsidePinsEq s (select_row row s) := by
  by_cases h : row < 6
  · obtain ⟨hd, hp⟩ := select_row_registers row s h
    obtain ⟨hb1, hb2⟩ := select_row_portB row s
    obtain ⟨m2, m3⟩ := row_bitmask_testBit row
    unfold outsidePinsEq
    rw [hd, hp, hb1, hb2]
    refine ⟨⟨?_, ?_⟩, ⟨?_, ?_⟩, ⟨rfl, rfl⟩, ⟨rfl, rfl⟩⟩
    · exact set_val_testBit_of_not _ _ _ m2
    · exact set_val_testBit_of_not _ _ _ m3
    · exact clear_val_testBit_of_not _ _ _ m2 (by decide)
    · exact clear_val_testBit_of_not _ _ _ m3 (by decide)
  · rw [select_row_of_ge row s (by omega)]
    exact outsidePinsEq_refl s

theorem clear_rows_outside (rows : List (Fin MATRIX_ROWS)) (s : State) :
    outsidePinsEq s (clear_rows rows s) := by
  obtain ⟨-, h1, h2, h3, h4⟩ := clear_rows_frame rows s
  exact outsidePinsEq_of_registers s _ h1 h2 h3 h4

theorem matrix_init_outside (s : State) : outsidePinsEq s (matrix_init s) := by
  have h1 := unselect_rows_outside s
  have h2 := init_cols_outside (unselect_rows s)
  have h3 := clear_rows_outside (List.finRange MATRIX_ROWS) (init_cols (unselect_rows s))
  exact outsidePinsEq_trans _ _ _ (outsidePinsEq_trans _ _ _ h1 h2) h3

theorem scan_row_registers (D : Nat) (pinb : Fin MATRIX_ROWS → Nat) (s : State)
    (i : Fin MATRIX_ROWS) :
    (scan_row D pinb s i).DDRD = (unselect_rows (select_row i.val s)).DDRD
      ∧ (scan_row D pinb s i).PORTD = (unselect_rows (select_row i.val s)).PORTD
      ∧ (scan_row D pinb s i).DDRB = (unselect_rows (select_row i.val s)).DDRB
      ∧ (scan_row D pinb s i).PORTB = (unselect_rows (select_row i.val s)).PORTB := by
  unfold scan_row
  by_cases h : s.matrix_debouncing i = read_cols (pinb i)
  · simp [h]
  · simp [h, unselect_rows]

theorem scan_row_outside (D : Nat) (pinb : Fin MATRIX_ROWS → Nat) (s : State)
    (i : Fin MATRIX_ROWS) : outsidePinsEq s (scan_row D pinb s i) := by
  obtain ⟨h1, h2, h3, h4⟩ := scan_row_registers D pinb s i
  have hsel := select_row_outside i.val s
  have hun := unselect_rows_outside (select_row i.val s)
  have hcomp := outsidePinsEq_trans _ _ _ hsel hun
  exact outsidePinsEq_trans _ _ _ hcomp (outsidePinsEq_of_registers _ _ h1 h2 h3 h4)

theorem scan_rows_outside (D : Nat) (pinb : Fin MATRIX_ROWS → Nat)
    (rows : List (Fin MATRIX_ROWS)) (s : State) :
    outsidePinsEq s (scan_rows D pinb rows s) := by
  induction rows generalizing s with
  | nil => exact outsidePinsEq_refl s
  | cons i rest ih =>
    exact outsidePinsEq_trans _ _ _ (scan_row_outside D pinb s i) (ih (scan_row D pinb s i))

theorem matrix_scan_outside (D : Nat) (pinb : Fin MATRIX_ROWS → Nat) (s : State) :
    outsidePinsEq s (matrix_scan D pinb s).2 := by
  have hrows := scan_rows_outside D pinb (List.finRange MATRIX_ROWS) s
  obtain ⟨h1, h2, h3, h4⟩ :=
    debounce_step_registers (scan_rows D pinb (List.finRange MATRIX_ROWS) s)
  exact outsidePinsEq_trans _ _ _ hrows (outsidePinsEq_of_registers _ _ h1 h2 h3 h4)

/-- C19: for every register state and every row argument, in range or not,
`select_row`, `unselect_rows`, `init_cols`, `matrix_init` and `matrix_scan` leave
bits 2 and 3 of `DDRD` and `PORTD` and bits 6 and 7 of `DDRB` and `PORTB` as they
were before the call; and `select_row` with `row >= 6` changes nothing at all. -/
theorem outside_pins_untouched (D : Nat) (pinb : Fin MATRIX_ROWS → Nat) (s : State)
    (row : Nat) :
    outsidePinsEq s (select_row row s)
      ∧ outsidePinsEq s (unselect_rows s)
      ∧ outsidePinsEq s (init_cols s)
      ∧ outsidePinsEq s (matrix_init s)
      ∧ outsidePinsEq s (matrix_scan D pinb s).2
      ∧ (6 ≤ row → select_row row s = s) :=
  ⟨select_row_outside row s, unselect_rows_outside s, init_cols_outside s,
    matrix_init_outside s, matrix_scan_outside D pinb s, select_row_of_ge row s⟩

/-- Witness of C19: a register state with every bit of the four registers set,
and the out-of-range row argument 6. -/
theorem outside_pins_untouched_witness :
    (6 ≤ 6)
      ∧ select_row 6 { initState 1 with DDRD := 0xFF, PORTD := 0xFF, DDRB := 0xFF,
                                        PORTB := 0xFF }
          = { initState 1 with DDRD := 0xFF, PORTD := 0xFF, DDRB := 0xFF, PORTB := 0xFF }
      ∧ outsidePinsEq
          { initState 1 with DDRD := 0xFF, PORTD := 0xFF, DDRB := 0xFF, PORTB := 0xFF }
          (matrix_init
            { initState 1 with DDRD := 0xFF, PORTD := 0xFF, DDRB := 0xFF, PORTB := 0xFF }) :=
  have h := outside_pins_untouched 1 pinbIdle
    { initState 1 with DDRD := 0xFF, PORTD := 0xFF, DDRB := 0xFF, PORTB := 0xFF } 6
  ⟨le_refl 6, h.2.2.2.2.2 (le_refl 6), h.2.2.2.1⟩

/-! ## The counter after a changed pass, and the invariant again -/

theorem counterAfterRows_changed (D : Nat) (pinb : Fin MATRIX_ROWS → Nat) (s : State)
    (h : ∃ r, read_cols (pinb r) ≠ s.matrix_debouncing r) :
    counterAfterRows D pinb s = D % 256 := by
  obtain ⟨r, hr⟩ := h
  unfold counterAfterRows
  rw [if_pos ⟨r, List.mem_finRange r, fun he => hr he.symm⟩]

theorem counter_le_of_reachable (D : Nat) (s : State) (h : Reachable D s) :
    s.debouncing ≤ D % 256 := by
  induction h with
  | start s h => exact le_of_eq h.1
  | init s _ ih =>
    rw [matrix_init_debouncing]
    exact ih
  | scan s pinb _ ih =>
    have hc := counterAfterRows_le D pinb s ih
    have hlt : D % 256 < 256 := Nat.mod_lt _ (by decide)
    rw [matrix_scan_debouncing]
    split <;> omega

/-- C17, as stated, fails: `DEBOUNCE = 256` is at least 2, but the eight-bit
counter stores it as 0.  From the reset state, a pass in which row 0 reads
differently from `matrix_debouncing` ends with the counter at 0, not at
`DEBOUNCE - 1`, and with `matrix_is_modified()` true. -/
theorem changed_pass_counter_at_256 :
    2 ≤ 256
      ∧ (∃ r, read_cols (pinbRow0Col0 r) ≠ (initState 256).matrix_debouncing r)
      ∧ (matrix_scan 256 pinbRow0Col0 (initState 256)).2.debouncing ≠ 256 - 1
      ∧ matrix_is_modified (matrix_scan 256 pinbRow0Col0 (initState 256)).2 = true := by
  decide

/-- C17, amended: for every `DEBOUNCE` from 2 to 255, every state and every input
in which at least one row reads differently from its `matrix_debouncing` entry,
one `matrix_scan` pass leaves every row of `matrix` unchanged, and afterwards
the counter equals `DEBOUNCE - 1` and `matrix_is_modified()` is false. -/
theorem changed_pass_blocks_promotion (D : Nat) (hD : 2 ≤ D) (hD8 : D ≤ 255)
    (pinb : Fin MATRIX_ROWS → Nat) (s : State)
    (hch : ∃ r, read_cols (pinb r) ≠ s.matrix_debouncing r) :
    (∀ r, (matrix_scan D pinb s).2.matrix r = s.matrix r)
      ∧ (matrix_scan D pinb s).2.debouncing = D - 1
      ∧ matrix_is_modified (matrix_scan D pinb s).2 = false := by
  have hmod : D % 256 = D := Nat.mod_eq_of_lt (by omega)
  have hc : counterAfterRows D pinb s = D := by
    rw [counterAfterRows_changed D pinb s hch, hmod]
  have hdec : (D + 255) % 256 = D - 1 := by omega
  have hdeb : (matrix_scan D pinb s).2.debouncing = D - 1 := by
    rw [matrix_scan_debouncing, hc, hdec, if_pos (by omega)]
  refine ⟨fun r => ?_, hdeb, ?_⟩
  · rw [matrix_scan_matrix, hc, hdec, if_neg]
    omega
  · unfold matrix_is_modified
    rw [hdeb, if_pos]
    omega

/-- Witness of C17 amended: `DEBOUNCE = 2`, the reset state, a pass that reads
column 0 of row 0 closed. -/
theorem changed_pass_blocks_promotion_witness :
    2 ≤ 2 ∧ 2 ≤ 255
      ∧ (∃ r, read_cols (pinbRow0Col0 r) ≠ (initState 2).matrix_debouncing r)
      ∧ (∀ r, (matrix_scan 2 pinbRow0Col0 (initState 2)).2.matrix r = (initState 2).matrix r)
      ∧ (matrix_scan 2 pinbRow0Col0 (initState 2)).2.debouncing = 2 - 1
      ∧ matrix_is_modified (matrix_scan 2 pinbRow0Col0 (initState 2)).2 = false :=
  have hch : ∃ r, read_cols (pinbRow0Col0 r) ≠ (initState 2).matrix_debouncing r := by
    decide
  ⟨by decide, by decide, hch,
    changed_pass_blocks_promotion 2 (by decide) (by decide) pinbRow0Col0 (initState 2) hch⟩

/-- C18, as stated, fails when the eight-bit store of `DEBOUNCE` is 0.  With
`DEBOUNCE = 0`, and likewise with `DEBOUNCE = 256`, one pass from the reset state
that reads column 0 of row 0 closed gives a reachable state whose counter is 0
while row 0 of `matrix` differs from row 0 of `matrix_debouncing`. -/
theorem settled_not_in_sync_at_zero :
    (Reachable 0 (matrix_scan 0 pinbRow0Col0 (initState 0)).2
        ∧ (matrix_scan 0 pinbRow0Col0 (initState 0)).2.debouncing = 0
        ∧ (matrix_scan 0 pinbRow0Col0 (initState 0)).2.matrix 0
            ≠ (matrix_scan 0 pinbRow0Col0 (initState 0)).2.matrix_debouncing 0)
      ∧ (Reachable 256 (matrix_scan 256 pinbRow0Col0 (initState 256)).2
        ∧ (matrix_scan 256 pinbRow0Col0 (initState 256)).2.debouncing = 0
        ∧ (matrix_scan 256 pinbRow0Col0 (initState 256)).2.matrix 0
            ≠ (matrix_scan 256 pinbRow0Col0 (initState 256)).2.matrix_debouncing 0) :=
  ⟨⟨Reachable.scan _ _ (reachable_initState 0), by decide, by decide⟩,
    ⟨Reachable.scan _ _ (reachable_initState 256), by decide, by decide⟩⟩

/-- C18, amended: in every state reachable from the initial state by `matrix_init`
and `matrix_scan` with arbitrary inputs, `debouncing <= DEBOUNCE`; and when the
eight-bit store of `DEBOUNCE` is not 0 (`DEBOUNCE` from 1 to 255 in particular),
whenever `debouncing = 0` every row of `matrix` equals the same row of
`matrix_debouncing`. -/
theorem settled_means_in_sync (D : Nat) (s : State) (hs : Reachable D s) :
    s.debouncing ≤ D
      ∧ (D % 256 ≠ 0 → s.debouncing = 0 → ∀ r, s.matrix r = s.matrix_debouncing r) := by
  refine ⟨le_trans (counter_le_of_reachable D s hs) (Nat.mod_le _ _), fun hD h0 r => ?_⟩
  exact (settledInSync_of_reachable D hD s hs).2 h0 r

/-- Witness of C18 amended: `DEBOUNCE = 1`, the state after one pass from the reset
state that reads column 0 of row 0 closed; its counter is 0. -/
theorem settled_means_in_sync_witness :
    Reachable 1 (matrix_scan 1 pinbRow0Col0 (initState 1)).2
      ∧ 1 % 256 ≠ 0
      ∧ (matrix_scan 1 pinbRow0Col0 (initState 1)).2.debouncing = 0
      ∧ (matrix_scan 1 pinbRow0Col0 (initState 1)).2.debouncing ≤ 1
      ∧ ∀ r, (matrix_scan 1 pinbRow0Col0 (initState 1)).2.matrix r
          = (matrix_scan 1 pinbRow0Col0 (initState 1)).2.matrix_debouncing r :=
  have hr : Reachable 1 (matrix_scan 1 pinbRow0Col0 (initState 1)).2 :=
    Reachable.scan _ _ (reachable_initState 1)
  have hD : 1 % 256 ≠ 0 := by decide
  have h0 : (matrix_scan 1 pinbRow0Col0 (initState 1)).2.debouncing = 0 := by decide
  have h := settled_means_in_sync 1 _ hr
  ⟨hr, hD, h0, h.1, h.2 hD h0⟩

/-! ## Ghost detection -/

theorem testBit_two_mul_zero (y : Nat) : (2 * y).testBit 0 = false := by
  rw [Nat.testBit_zero]
  simp

theorem testBit_two_mul_succ (y i : Nat) : (2 * y).testBit (i + 1) = y.testBit i := by
  rw [Nat.testBit_succ]
  congr 1
  omega

theorem testBit_two_mul_add_one_succ (y i : Nat) :
    (2 * y + 1).testBit (i + 1) = y.testBit i := by
  rw [Nat.testBit_succ]
  congr 1
  omega

theorem pred_and_even (y : Nat) : (2 * y - 1) &&& (2 * y) = 2 * ((y - 1) &&& y) := by
  apply Nat.eq_of_testBit_eq
  intro i
  cases i with
  | zero =>
    rw [Nat.testBit_and, testBit_two_mul_zero, testBit_two_mul_zero, Bool.and_false]
  | succ j =>
    rw [Nat.testBit_and, testBit_two_mul_succ, testBit_two_mul_succ, Nat.testBit_and,
      Nat.testBit_succ]
    by_cases hy : y = 0
    · subst hy
      simp
    · have : (2 * y - 1) / 2 = y - 1 := by omega
      rw [this]

theorem pred_and_odd (y : Nat) : (2 * y + 1 - 1) &&& (2 * y + 1) = 2 * y := by
  apply Nat.eq_of_testBit_eq
  intro i
  have h : 2 * y + 1 - 1 = 2 * y := by omega
  rw [h]
  cases i with
  | zero =>
    rw [Nat.testBit_and, testBit_two_mul_zero, Bool.false_and]
  | succ j =>
    rw [Nat.testBit_and, testBit_two_mul_succ, testBit_two_mul_add_one_succ, Bool.and_self]

theorem hasTwoBits_even (y : Nat) : hasTwoBits (2 * y) ↔ hasTwoBits y := by
  constructor
  · rintro ⟨a, b, hab, ha, hb⟩
    cases a with
    | zero =>
      rw [testBit_two_mul_zero] at ha
      exact absurd ha (by decide)
    | succ a =>
      cases b with
      | zero =>
        rw [testBit_two_mul_zero] at hb
        exact absurd hb (by decide)
      | succ b =>
        rw [testBit_two_mul_succ] at ha hb
        exact ⟨a, b, fun h => hab (by rw [h]), ha, hb⟩
  · rintro ⟨a, b, hab, ha, hb⟩
    refine ⟨a + 1, b + 1, fun h => hab (by omega), ?_, ?_⟩
    · rw [testBit_two_mul_succ]
      exact ha
    · rw [testBit_two_mul_succ]
      exact hb

theorem hasTwoBits_odd (y : Nat) : hasTwoBits (2 * y + 1) ↔ y ≠ 0 := by
  constructor
  · rintro ⟨a, b, hab, ha, hb⟩ hy
    subst hy
    have ha0 : a = 0 := Nat.testBit_one_eq_true_iff_self_eq_zero.mp ha
    have hb0 : b = 0 := Nat.testBit_one_eq_true_iff_self_eq_zero.mp hb
    exact hab (by rw [ha0, hb0])
  · intro hy
    obtain ⟨i, hi⟩ := Nat.ne_zero_implies_bit_true hy
    refine ⟨0, i + 1, by omega, ?_, ?_⟩
    · rw [Nat.testBit_zero]
      exact decide_eq_true (by omega)
    · rw [testBit_two_mul_add_one_succ]
      exact hi

theorem pred_and_ne_zero_iff (x : Nat) : (x - 1) &&& x ≠ 0 ↔ hasTwoBits x := by
  induction x using Nat.strong_induction_on with
  | _ x ih =>
    rcases Nat.even_or_odd' x with ⟨y, hy | hy⟩
    · subst hy
      rw [pred_and_even, hasTwoBits_even]
      by_cases h0 : y = 0
      · subst h0
        constructor
        · intro h
          exact absurd rfl h
        · rintro ⟨a, b, -, ha, -⟩
          rw [Nat.zero_testBit] at ha
          exact absurd ha (by decide)
      · rw [← ih y (by omega)]
        constructor
        · intro h h2
          apply h
          rw [h2]
        · intro h h2
          apply h
          omega
    · subst hy
      rw [pred_and_odd, hasTwoBits_odd]
      omega

theorem and_self_ne_zero_of_hasTwoBits (x : Nat) (h : hasTwoBits x) : x &&& x ≠ 0 := by
  obtain ⟨a, -, -, ha, -⟩ := h
  rw [Nat.and_self]
  intro h0
  rw [h0, Nat.zero_testBit] at ha
  exact absurd ha (by decide)

theorem matrix_has_ghost_in_row_iff (s : State) (row : Fin MATRIX_ROWS) :
    matrix_has_ghost_in_row s row = true
      ↔ hasTwoBits (s.matrix row)
          ∧ ∃ i, i ≠ row ∧ s.matrix i &&& s.matrix row ≠ 0 := by
  unfold matrix_has_ghost_in_row
  by_cases h : (s.matrix row - 1) &&& s.matrix row = 0
  · rw [if_pos h]
    constructor
    · intro hf
      exact absurd hf (by decide)
    · rintro ⟨h2, -⟩
      exact absurd h ((pred_and_ne_zero_iff _).mpr h2)
  · rw [if_neg h, List.any_eq_true]
    constructor
    · rintro ⟨i, -, hi⟩
      refine ⟨(pred_and_ne_zero_iff _).mp h, i, ?_⟩
      simpa using hi
    · rintro ⟨-, i, hne, hand⟩
      refine ⟨i, List.mem_finRange i, ?_⟩
      simpa using ⟨hne, hand⟩

/-- C11: for every stable matrix and every row, `matrix_has_ghost_in_row(row)` is
true exactly when `matrix[row]` has at least two bits set and some other row `i`
has `matrix[i] & matrix[row] != 0`.  So two rows that hold the same pattern of
two or more bits are both reported, and a row with zero or one bit set is never
reported, whatever the other rows hold. -/
theorem ghost_detection (s : State) (row : Fin MATRIX_ROWS) :
    (matrix_has_ghost_in_row s row = true
        ↔ hasTwoBits (s.matrix row)
            ∧ ∃ i, i ≠ row ∧ s.matrix i &&& s.matrix row ≠ 0)
      ∧ (∀ other, other ≠ row → s.matrix other = s.matrix row →
          hasTwoBits (s.matrix row) →
            matrix_has_ghost_in_row s row = true
              ∧ matrix_has_ghost_in_row s other = true)
      ∧ (¬ hasTwoBits (s.matrix row) → matrix_has_ghost_in_row s row = false) := by
  refine ⟨matrix_has_ghost_in_row_iff s row, fun other hne heq h2 => ⟨?_, ?_⟩, fun hn => ?_⟩
  · refine (matrix_has_ghost_in_row_iff s row).mpr ⟨h2, other, hne, ?_⟩
    rw [heq]
    exact and_self_ne_zero_of_hasTwoBits _ h2
  · refine (matrix_has_ghost_in_row_iff s other).mpr ⟨by rw [heq]; exact h2, row, ?_, ?_⟩
    · exact fun h => hne h.symm
    · rw [heq]
      exact and_self_ne_zero_of_hasTwoBits _ h2
  · cases hg : matrix_has_ghost_in_row s row with
    | false => rfl
    | true => exact absurd ((matrix_has_ghost_in_row_iff s row).mp hg).1 hn

/-- Witness of C11: a stable matrix whose rows 0 and 1 both hold `0b000011` and
whose other rows are empty; rows 0 and 1 are both reported. -/
theorem ghost_detection_witness :
    hasTwoBits
        ({ initState 1 with matrix := fun r => if r.val < 2 then 0b000011 else 0 }.matrix 0)
      ∧ matrix_has_ghost_in_row
          { initState 1 with matrix := fun r => if r.val < 2 then 0b000011 else 0 } 0 = true
      ∧ matrix_has_ghost_in_row
          { initState 1 with matrix := fun r => if r.val < 2 then 0b000011 else 0 } 1 = true :=
  have h2 : hasTwoBits
      ({ initState 1 with matrix := fun r => if r.val < 2 then 0b000011 else 0 }.matrix 0) :=
    ⟨0, 1, by decide, by decide, by decide⟩
  ⟨h2, (ghost_detection
      { initState 1 with matrix := fun r => if r.val < 2 then 0b000011 else 0 } 0).2.1
    1 (by decide) rfl h2⟩

end Bskbb14
